import Mathlib

/-!
Verification of the maze program in `src/maze.py`.

The program builds a perfect maze on a rectangular grid by randomized
iterative depth-first search (`Maze.generate_board`), reconstructs the
solution path from the backpointer table (`Maze.get_path`), maps moves to
directions (`Maze.get_dir`), and clamps user-requested dimensions in the
UI layer (`MazeUI.__init__`).

Modelling conventions:
* Python int pairs become `ℤ × ℤ`; Python integer division `/` (floor
  division in Python 2) becomes `Int.fdiv`.
* Python 2-dimensional lists become `List (List _)`; a read `l[i]` or
  write `l[i] = v` with a non-negative index that is out of range raises
  `IndexError` in Python, which the model renders as `none` (no negative
  indices are ever produced by the program).
* The global random source consulted by `random.choice(children)` becomes
  an explicit stream `rng : ℕ → ℕ`; the `k`-th call to `random.choice`
  picks index `rng k % children.length`.
* The two `while` loops run on fuel; the generator fuel `genFuel` is
  proved sufficient below (the loop's step strictly decreases a measure).
-/

abbrev Cell : Type := ℤ × ℤ

abbrev Board : Type := List (List ℕ)

abbrev BackTable : Type := List (List (Option Cell))

/-- Python list read `l[i]` for a non-negative index `i`; `none` models the
`IndexError` raised when the index is out of range. -/
def pyGet {α : Type} (l : List α) (i : ℤ) : Option α :=
  if h : 0 ≤ i ∧ i.toNat < l.length then some (l.get ⟨i.toNat, h.2⟩) else none

/-- Python list write `l[i] = a` for a non-negative index `i`. -/
def pySet {α : Type} (l : List α) (i : ℤ) (a : α) : Option (List α) :=
  if 0 ≤ i ∧ i.toNat < l.length then some (l.set i.toNat a) else none

/-- Python 2-dimensional read `b[r][c]`. -/
def get2 {α : Type} (b : List (List α)) (r c : ℤ) : Option α :=
  (pyGet b r).bind fun row => pyGet row c

/-- Python 2-dimensional write `b[r][c] = v`. -/
def set2 {α : Type} (b : List (List α)) (r c : ℤ) (v : α) : Option (List (List α)) :=
  (pyGet b r).bind fun row => (pySet row c v).bind fun row2 => pySet b r row2

instance instDecEqGenResult : DecidableEq (Board × BackTable × Cell) := instDecidableEqProd

/-- Manhattan distance between two grid cells. -/
def manh (p q : Cell) : ℕ := (p.1 - q.1).natAbs + (p.2 - q.2).natAbs

namespace Maze

/-- `Maze.WALL` -/
def WALL : ℕ := 0

/-- `Maze.SPACE` -/
def SPACE : ℕ := 1

/-- `Maze.START` -/
def START : ℕ := 2

/-- `Maze.STOP` -/
def STOP : ℕ := 3

/-- `Maze.START_CELL` -/
def START_CELL : Cell := (0, 0)

/-- `Maze.NO_DIR` -/
def NO_DIR : ℕ := 0

/-- `Maze.LEFT` -/
def LEFT : ℕ := 1

/-- `Maze.RIGHT` -/
def RIGHT : ℕ := 2

/-- `Maze.UP` -/
def UP : ℕ := 3

/-- `Maze.DOWN` -/
def DOWN : ℕ := 4

/-- `Maze.get_dir(start, end)`: compare the positions of two consecutive
squares and return the direction between them.  The Python function falls
off the end (returning `None`, modelled as `none`) when the cells are
equal. -/
def get_dir (s e : Cell) : Option ℕ :=
  if e.1 > s.1 then some DOWN
  else if e.1 < s.1 then some UP
  else if e.2 > s.2 then some RIGHT
  else if e.2 < s.2 then some LEFT
  else none

/-- The wall cell halfway between two cells: `((a.1+b.1)/2, (a.2+b.2)/2)`
with Python floor division. -/
def midCell (p q : Cell) : Cell := ((p.1 + q.1).fdiv 2, (p.2 + q.2).fdiv 2)

/-- One entry of the solution path: a position and a direction
(`none` models the Python `None` that `get_dir` can return). -/
abbrev PathEntry : Type := Cell × Option ℕ

/-- The loop of `Maze.get_path`: walk the backpointers from `cell`,
accumulating path entries.  `endC` is the `end` argument the loop compares
against; the fuel is a modelling artifact (the Python loop runs until the
backpointer is `None`). -/
def get_path_loop (back : BackTable) (endC : Cell) :
    ℕ → Cell → List PathEntry → Option (List PathEntry)
  | 0, _, _ => none
  | fuel + 1, cell, path =>
    let path1 := if cell = START_CELL ∨ cell = endC then path
                 else path ++ [(cell, some NO_DIR)]
    match get2 back cell.1 cell.2 with
    | none => none
    | some none => some path1
    | some (some c2) =>
      get_path_loop back endC fuel c2 (path1 ++ [(midCell cell c2, get_dir c2 cell)])

/-- `Maze.get_path(back, end)`: the path from start to end, reconstructed
from the backpointer table. -/
def get_path (fuel : ℕ) (back : BackTable) (endC : Cell) : Option (List PathEntry) :=
  get_path_loop back endC fuel endC []

/-- The mutable state of the `while` loop in `Maze.generate_board`.
`k` counts the random choices consumed so far. -/
structure GenState where
  maxLength : ℕ
  stack : List Cell
  visited : Finset Cell
  board : Board
  back : BackTable
  endCell : Cell
  k : ℕ

/-- The four candidate neighbours `[(r+2,c), (r-2,c), (r,c+2), (r,c-2)]`. -/
def neighbors (r c : ℤ) : List Cell := [(r + 2, c), (r - 2, c), (r, c + 2), (r, c - 2)]

/-- The `filter` applied to the candidate neighbours: in bounds and not
yet visited. -/
def childrenOf (rows cols : ℤ) (visited : Finset Cell) (r c : ℤ) : List Cell :=
  (neighbors r c).filter fun p =>
    decide (0 ≤ p.1 ∧ p.1 < rows ∧ 0 ≤ p.2 ∧ p.2 < cols ∧ p ∉ visited)

/-- The state after a backtracking (pop) iteration starting from stack
`cell :: rest` with the board already updated to `board'`: the visited
set gains `cell`, the maximum-depth bookkeeping is updated (strict
comparison), and the stack is popped. -/
def popState (st : GenState) (cell : Cell) (rest : List Cell) (board' : Board) : GenState where
  maxLength := if st.stack.length > st.maxLength then st.stack.length else st.maxLength
  stack := rest
  visited := insert cell st.visited
  board := board'
  back := st.back
  endCell := if st.stack.length > st.maxLength then cell else st.endCell
  k := st.k

/-- The state after a carving (push) iteration: like `popState` but the
chosen `child` is pushed, the wall between `cell` and `child` has been
cleared (`board''`), and the backpointer of `child` set (`back'`). -/
def pushState (st : GenState) (cell child : Cell) (board'' : Board) (back' : BackTable) :
    GenState where
  maxLength := if st.stack.length > st.maxLength then st.stack.length else st.maxLength
  stack := child :: st.stack
  visited := insert cell st.visited
  board := board''
  back := back'
  endCell := if st.stack.length > st.maxLength then cell else st.endCell
  k := st.k + 1

/-- `random.choice(children)`: the `k`-th random choice picks index
`rng k % children.length`. -/
def chosenChild (rows cols : ℤ) (rng : ℕ → ℕ) (st : GenState) (cell : Cell)
    (h : childrenOf rows cols (insert cell st.visited) cell.1 cell.2 ≠ []) : Cell :=
  (childrenOf rows cols (insert cell st.visited) cell.1 cell.2).get
    ⟨rng st.k % (childrenOf rows cols (insert cell st.visited) cell.1 cell.2).length,
     Nat.mod_lt _ (List.length_pos.mpr h)⟩

/-- One iteration of the `while` loop of `Maze.generate_board` (the stack
is known to be non-empty when it runs; on an empty stack it returns
`none`, a case the loop never reaches).  Mark the top cell visited and
`SPACE`, update the furthest-cell bookkeeping, filter the candidate
neighbours; if any remain, choose one at random, clear the wall between,
push it and record its backpointer, else pop. -/
def genStep (rows cols : ℤ) (rng : ℕ → ℕ) (st : GenState) : Option GenState :=
  match st.stack with
  | [] => none
  | cell :: rest =>
    match set2 st.board cell.1 cell.2 SPACE with
    | none => none
    | some board' =>
      if hch : childrenOf rows cols (insert cell st.visited) cell.1 cell.2 = [] then
        some (popState st cell rest board')
      else
        match set2 board' (midCell cell (chosenChild rows cols rng st cell hch)).1
            (midCell cell (chosenChild rows cols rng st cell hch)).2 SPACE with
        | none => none
        | some board'' =>
          match set2 st.back (chosenChild rows cols rng st cell hch).1
              (chosenChild rows cols rng st cell hch).2 (some (cell.1, cell.2)) with
          | none => none
          | some back' =>
            some (pushState st cell (chosenChild rows cols rng st cell hch) board'' back')

/-- The fuelled `while` loop of `Maze.generate_board`. -/
def genLoop (rows cols : ℤ) (rng : ℕ → ℕ) : ℕ → GenState → Option (Board × BackTable × Cell)
  | 0, _ => none
  | fuel + 1, st =>
    match st.stack with
    | [] => some (st.board, st.back, st.endCell)
    | _ :: _ =>
      match genStep rows cols rng st with
      | none => none
      | some st' => genLoop rows cols rng fuel st'

/-- The finite set of in-bounds grid cells. -/
def boundsF (rows cols : ℤ) : Finset Cell :=
  Finset.Icc 0 (rows - 1) ×ˢ Finset.Icc 0 (cols - 1)

/-- Fuel for the generation loop; proved sufficient below. -/
def genFuel (rows cols : ℤ) : ℕ := 3 * (boundsF rows cols).card + 4

/-- The state of `Maze.generate_board` just before the `while` loop:
all-wall board, empty backpointer table, the start cell on the stack.
(`endCell` is dead until the first iteration, which always overwrites it;
Python leaves `end` unbound until then.) -/
def initState (rows cols : ℤ) : GenState where
  maxLength := 0
  stack := [START_CELL]
  visited := ∅
  board := List.replicate rows.toNat (List.replicate cols.toNat WALL)
  back := List.replicate rows.toNat (List.replicate cols.toNat none)
  endCell := START_CELL
  k := 0

/-- `Maze.generate_board(rows, cols)` with the random source made
explicit: returns the board, the backpointer table and the end cell, or
`none` when the Python code raises (degenerate dimensions). -/
def generate_board (rows cols : ℤ) (rng : ℕ → ℕ) : Option (Board × BackTable × Cell) :=
  genLoop rows cols rng (genFuel rows cols) (initState rows cols)

/-- Fuel for `get_path` as called from `Maze.__init__`; any bound larger
than the backpointer chain length is equivalent to the Python loop. -/
def pathFuel (rows cols : ℤ) : ℕ := rows.toNat * cols.toNat + 2

/-- `Maze.__init__(rows, cols)`: generate the board, mark `START` and
`STOP` (in that order, so `STOP` overwrites `START` when the two cells
coincide), and compute the solution path. -/
def Maze_init (rows cols : ℤ) (rng : ℕ → ℕ) : Option (Board × List PathEntry) :=
  match generate_board rows cols rng with
  | none => none
  | some (board, back, e) =>
    match set2 board START_CELL.1 START_CELL.2 START with
    | none => none
    | some b1 =>
      match set2 b1 e.1 e.2 STOP with
      | none => none
      | some b2 =>
        match get_path (pathFuel rows cols) back e with
        | none => none
        | some p => some (b2, p)

end Maze

namespace MazeUI

/-- `MazeUI.MAX_WIDTH` -/
def MAX_WIDTH : ℤ := 600

/-- `MazeUI.MAX_HEIGHT` -/
def MAX_HEIGHT : ℤ := 600

/-- `MazeUI.MIN_SIZE` -/
def MIN_SIZE : ℤ := 3

/-- `MazeUI.MAX_ROWS = (MAX_HEIGHT/MIN_SIZE + 1)/2` (Python floor division). -/
def MAX_ROWS : ℤ := (MAX_HEIGHT.fdiv MIN_SIZE + 1).fdiv 2

/-- `MazeUI.MAX_COLS = (MAX_WIDTH/MIN_SIZE + 1)/2` (Python floor division). -/
def MAX_COLS : ℤ := (MAX_WIDTH.fdiv MIN_SIZE + 1).fdiv 2

/-- `MazeUI.MIN_ROWS` -/
def MIN_ROWS : ℤ := 2

/-- `MazeUI.MIN_COLS` -/
def MIN_COLS : ℤ := 1

/-- `self.rows = max((min((rows, self.MAX_ROWS)), self.MIN_ROWS))` -/
def clampRows (rows : ℤ) : ℤ := max (min rows MAX_ROWS) MIN_ROWS

/-- `self.cols = max((min((cols, self.MAX_COLS)), self.MIN_COLS))` -/
def clampCols (cols : ℤ) : ℤ := max (min cols MAX_COLS) MIN_COLS

/-- `rows_actual = 2*self.rows - 1` -/
def rowsActual (rows : ℤ) : ℤ := 2 * clampRows rows - 1

/-- `cols_actual = 2*self.cols - 1` -/
def colsActual (cols : ℤ) : ℤ := 2 * clampCols cols - 1

/-- The maze constructed by `MazeUI.__init__` from the requested room
counts. -/
def MazeUI_init (rows cols : ℤ) (rng : ℕ → ℕ) : Option (Board × List Maze.PathEntry) :=
  Maze.Maze_init (rowsActual rows) (colsActual cols) rng

end MazeUI

/-- The furthest-cell bookkeeping of `generate_board` as a fold step:
`(max_length, end)` is replaced by a trace entry `(depth, cell)` exactly
when `depth > max_length` (lines 64–66 of the source, strict comparison). -/
def updMax (acc : ℕ × Cell) (pr : ℕ × Cell) : ℕ × Cell :=
  if pr.1 > acc.1 then pr else acc

/-- The maximum depth of a trace, starting from `m0`. -/
def maxD (ds : List (ℕ × Cell)) (m0 : ℕ) : ℕ :=
  ds.foldl (fun a pr => max a pr.1) m0

/-- Instrumented companion of the generation loop: the trace of
`(stack depth, top cell)` pairs seen by the furthest-cell bookkeeping,
one per iteration of the `while` loop. -/
def genDepths (rows cols : ℤ) (rng : ℕ → ℕ) : ℕ → Maze.GenState → Option (List (ℕ × Cell))
  | 0, _ => none
  | fuel + 1, st =>
    match st.stack with
    | [] => some []
    | cell :: _ =>
      match Maze.genStep rows cols rng st with
      | none => none
      | some st' =>
        (genDepths rows cols rng fuel st').map (fun ds => (st.stack.length, cell) :: ds)

/-! ### Lemmas about the Python-style list operations -/

/-- In-bounds predicate for the `rows × cols` grid. -/
def inB (rows cols : ℤ) (p : Cell) : Prop :=
  0 ≤ p.1 ∧ p.1 < rows ∧ 0 ≤ p.2 ∧ p.2 < cols

/-- A rectangular 2-dimensional list with `rows` rows of length `cols`. -/
def Rect {α : Type} (b : List (List α)) (rows cols : ℤ) : Prop :=
  b.length = rows.toNat ∧ ∀ row ∈ b, row.length = cols.toNat

theorem mem_boundsF {rows cols : ℤ} {p : Cell} :
    p ∈ Maze.boundsF rows cols ↔ inB rows cols p := by
  cases p with
  | mk r c =>
    simp only [Maze.boundsF, Finset.mem_product, Finset.mem_Icc, inB]
    omega

section ListIndex

variable {α : Type}

theorem pyGet_eq_some_iff {l : List α} {i : ℤ} {a : α} :
    pyGet l i = some a ↔ ∃ h : i.toNat < l.length, 0 ≤ i ∧ l.get ⟨i.toNat, h⟩ = a := by
  unfold pyGet
  split
  case isTrue h =>
    constructor
    · intro he
      exact ⟨h.2, h.1, Option.some.injEq _ _ ▸ he⟩
    · rintro ⟨h', h0, he⟩
      simp only [Option.some.injEq]
      exact he
  case isFalse h =>
    constructor
    · intro he
      exact absurd he (by simp)
    · rintro ⟨h', h0, -⟩
      exact absurd ⟨h0, h'⟩ h

theorem pyGet_isSome_iff {l : List α} {i : ℤ} :
    (∃ a, pyGet l i = some a) ↔ 0 ≤ i ∧ i.toNat < l.length := by
  constructor
  · rintro ⟨a, ha⟩
    rcases pyGet_eq_some_iff.mp ha with ⟨h, h0, -⟩
    exact ⟨h0, h⟩
  · rintro ⟨h0, h⟩
    exact ⟨_, pyGet_eq_some_iff.mpr ⟨h, h0, rfl⟩⟩

theorem pyGet_mem {l : List α} {i : ℤ} {a : α} (h : pyGet l i = some a) : a ∈ l := by
  rcases pyGet_eq_some_iff.mp h with ⟨h', h0, he⟩
  exact he ▸ List.get_mem l _ _

theorem pySet_eq_some_iff {l l' : List α} {i : ℤ} {a : α} :
    pySet l i a = some l' ↔ 0 ≤ i ∧ i.toNat < l.length ∧ l' = l.set i.toNat a := by
  unfold pySet
  split
  case isTrue h =>
    simp only [Option.some.injEq]
    constructor
    · intro he
      exact ⟨h.1, h.2, he.symm⟩
    · rintro ⟨-, -, he⟩
      exact he.symm
  case isFalse h =>
    constructor
    · intro he
      exact absurd he (by simp)
    · rintro ⟨h0, h1, -⟩
      exact absurd ⟨h0, h1⟩ h

theorem get2_eq_some_iff {b : List (List α)} {r c : ℤ} {v : α} :
    get2 b r c = some v ↔ ∃ row, pyGet b r = some row ∧ pyGet row c = some v := by
  unfold get2
  rw [Option.bind_eq_some]

theorem set2_eq_some_iff {b b' : List (List α)} {r c : ℤ} {v : α} :
    set2 b r c v = some b' ↔
      ∃ row row2, pyGet b r = some row ∧ pySet row c v = some row2 ∧
        pySet b r row2 = some b' := by
  unfold set2
  rw [Option.bind_eq_some]
  constructor
  · rintro ⟨row, h1, h2⟩
    rcases Option.bind_eq_some.mp h2 with ⟨row2, h3, h4⟩
    exact ⟨row, row2, h1, h3, h4⟩
  · rintro ⟨row, row2, h1, h3, h4⟩
    exact ⟨row, h1, Option.bind_eq_some.mpr ⟨row2, h3, h4⟩⟩

theorem get2_mem {b : List (List α)} {r c : ℤ} {v : α} (h : get2 b r c = some v) :
    ∃ row ∈ b, v ∈ row := by
  rcases get2_eq_some_iff.mp h with ⟨row, h1, h2⟩
  exact ⟨row, pyGet_mem h1, pyGet_mem h2⟩

theorem get2_isSome_of_rect {b : List (List α)} {rows cols : ℤ} {p : Cell}
    (hb : Rect b rows cols) (hp : inB rows cols p) : ∃ v, get2 b p.1 p.2 = some v := by
  obtain ⟨hpa, hpb, hpc, hpd⟩ := hp
  have h1 : p.1.toNat < b.length := by rw [hb.1]; omega
  have hrow : pyGet b p.1 = some (b.get ⟨p.1.toNat, h1⟩) :=
    pyGet_eq_some_iff.mpr ⟨h1, hpa, rfl⟩
  have h2 : p.2.toNat < (b.get ⟨p.1.toNat, h1⟩).length := by
    rw [hb.2 _ (List.get_mem b _ _)]; omega
  exact ⟨_, get2_eq_some_iff.mpr ⟨_, hrow, pyGet_eq_some_iff.mpr ⟨h2, hpc, rfl⟩⟩⟩

theorem get2_some_bounds {b : List (List α)} {rows cols : ℤ} {r c : ℤ} {v : α}
    (hb : Rect b rows cols) (h : get2 b r c = some v) : inB rows cols (r, c) := by
  rcases get2_eq_some_iff.mp h with ⟨row, h1, h2⟩
  rcases pyGet_eq_some_iff.mp h1 with ⟨hl1, h01, hrow⟩
  rcases pyGet_eq_some_iff.mp h2 with ⟨hl2, h02, -⟩
  have := hb.1
  have := hb.2 row (hrow ▸ List.get_mem b _ _)
  constructor
  · exact h01
  refine ⟨by omega, h02, by omega⟩

theorem set2_isSome_of_rect {b : List (List α)} {rows cols : ℤ} {p : Cell} {v : α}
    (hb : Rect b rows cols) (hp : inB rows cols p) : ∃ b', set2 b p.1 p.2 v = some b' := by
  obtain ⟨hpa, hpb, hpc, hpd⟩ := hp
  have h1 : p.1.toNat < b.length := by rw [hb.1]; omega
  have hrow : pyGet b p.1 = some (b.get ⟨p.1.toNat, h1⟩) :=
    pyGet_eq_some_iff.mpr ⟨h1, hpa, rfl⟩
  have h2 : p.2.toNat < (b.get ⟨p.1.toNat, h1⟩).length := by
    rw [hb.2 _ (List.get_mem b _ _)]; omega
  refine ⟨_, set2_eq_some_iff.mpr ⟨_, _, hrow, pySet_eq_some_iff.mpr ⟨hpc, h2, rfl⟩,
    pySet_eq_some_iff.mpr ⟨hpa, h1, rfl⟩⟩⟩

theorem set2_rect {b b' : List (List α)} {rows cols : ℤ} {r c : ℤ} {v : α}
    (h : set2 b r c v = some b') (hb : Rect b rows cols) : Rect b' rows cols := by
  rcases set2_eq_some_iff.mp h with ⟨row, row2, h1, h2, h3⟩
  rcases pySet_eq_some_iff.mp h2 with ⟨-, -, hrow2⟩
  rcases pySet_eq_some_iff.mp h3 with ⟨-, -, hb'⟩
  subst hb'
  constructor
  · rw [List.length_set]; exact hb.1
  · intro row' hrow'
    rcases List.mem_or_eq_of_mem_set hrow' with hmem | heq
    · exact hb.2 _ hmem
    · subst heq
      rw [hrow2, List.length_set]
      exact hb.2 _ (pyGet_mem h1)

theorem set2_bounds {b b' : List (List α)} {rows cols : ℤ} {r c : ℤ} {v : α}
    (h : set2 b r c v = some b') (hb : Rect b rows cols) : inB rows cols (r, c) := by
  rcases set2_eq_some_iff.mp h with ⟨row, row2, h1, h2, -⟩
  rcases pyGet_eq_some_iff.mp h1 with ⟨hl1, h01, hrow⟩
  rcases pySet_eq_some_iff.mp h2 with ⟨h02, hl2, -⟩
  have := hb.1
  have := hb.2 row (hrow ▸ List.get_mem b _ _)
  exact ⟨h01, by omega, h02, by omega⟩

theorem get2_set2_self {b b' : List (List α)} {r c : ℤ} {v : α}
    (h : set2 b r c v = some b') : get2 b' r c = some v := by
  rcases set2_eq_some_iff.mp h with ⟨row, row2, h1, h2, h3⟩
  rcases pyGet_eq_some_iff.mp h1 with ⟨hl1, h01, hrow⟩
  rcases pySet_eq_some_iff.mp h2 with ⟨h02, hl2, hrow2⟩
  rcases pySet_eq_some_iff.mp h3 with ⟨-, -, hb'⟩
  subst hb'
  have hl1' : r.toNat < (b.set r.toNat row2).length := by rw [List.length_set]; exact hl1
  refine get2_eq_some_iff.mpr ⟨row2, pyGet_eq_some_iff.mpr ⟨hl1', h01, ?_⟩, ?_⟩
  · exact List.getElem_set_self _
  · subst hrow2
    have hl2' : c.toNat < (row.set c.toNat v).length := by rw [List.length_set]; exact hl2
    refine pyGet_eq_some_iff.mpr ⟨hl2', h02, ?_⟩
    exact List.getElem_set_self _

theorem get2_set2_ne {b b' : List (List α)} {r c r' c' : ℤ} {v : α}
    (h : set2 b r c v = some b') (hne : r' ≠ r ∨ c' ≠ c) :
    get2 b' r' c' = get2 b r' c' := by
  rcases set2_eq_some_iff.mp h with ⟨row, row2, h1, h2, h3⟩
  rcases pyGet_eq_some_iff.mp h1 with ⟨hl1, h01, hrow⟩
  rcases pySet_eq_some_iff.mp h2 with ⟨h02, hl2, hrow2⟩
  rcases pySet_eq_some_iff.mp h3 with ⟨-, -, hb'⟩
  subst hb'
  by_cases hr0 : 0 ≤ r'
  · by_cases hrr : r'.toNat = r.toNat
    · have hr' : r' = r := by omega
      subst hr'
      have hc : c' ≠ c := by
        rcases hne with h | h
        · exact absurd rfl h
        · exact h
      have hl1' : r'.toNat < (b.set r'.toNat row2).length := by
        rw [List.length_set]; exact hl1
      unfold get2
      rw [pyGet_eq_some_iff.mpr ⟨hl1', hr0, rfl⟩, pyGet_eq_some_iff.mpr ⟨hl1, hr0, rfl⟩]
      rw [show (b.set r'.toNat row2).get ⟨r'.toNat, hl1'⟩ = row2 from List.getElem_set_self _]
      rw [hrow]
      simp only [Option.some_bind]
      subst hrow2
      by_cases hc0 : 0 ≤ c'
      · by_cases hcc : c'.toNat = c.toNat
        · exact absurd (by omega) hc
        · unfold pyGet
          have hlen : (row.set c.toNat v).length = row.length := List.length_set _ _ _
          by_cases hcl : c'.toNat < row.length
          · rw [dif_pos ⟨hc0, by omega⟩, dif_pos ⟨hc0, hcl⟩]
            simp only [Option.some.injEq]
            exact List.getElem_set_ne (by omega) _
          · rw [dif_neg (by omega), dif_neg (by omega)]
      · unfold pyGet
        rw [dif_neg (by omega), dif_neg (by omega)]
    · unfold get2
      unfold pyGet
      have hlen : (b.set r.toNat row2).length = b.length := List.length_set _ _ _
      by_cases hrl : r'.toNat < b.length
      · rw [dif_pos ⟨hr0, by omega⟩, dif_pos ⟨hr0, hrl⟩]
        rw [show ((b.set r.toNat row2).get ⟨r'.toNat, by omega⟩ : List α)
              = b.get ⟨r'.toNat, hrl⟩ from List.getElem_set_ne (by omega) _]
      · rw [dif_neg (by omega), dif_neg (by omega)]
  · unfold get2
    unfold pyGet
    rw [dif_neg (by omega), dif_neg (by omega)]

theorem rect_replicate {rows cols : ℤ} {x : α} :
    Rect (List.replicate rows.toNat (List.replicate cols.toNat x)) rows cols := by
  constructor
  · exact List.length_replicate _ _
  · intro row hrow
    rw [List.eq_of_mem_replicate hrow]
    exact List.length_replicate _ _

theorem get2_replicate {n m : ℕ} {x v : α} {r c : ℤ}
    (h : get2 (List.replicate n (List.replicate m x)) r c = some v) : v = x := by
  rcases get2_mem h with ⟨row, hrow, hv⟩
  rw [List.eq_of_mem_replicate hrow] at hv
  exact List.eq_of_mem_replicate hv

end ListIndex

/-! ### Maze-domain predicates -/

/-- Two cells at distance 2 in exactly one coordinate (the implicit graph
on room cells used by the generator). -/
def dist2 (p q : Cell) : Prop :=
  (p.2 = q.2 ∧ (p.1 = q.1 + 2 ∨ q.1 = p.1 + 2)) ∨ (p.1 = q.1 ∧ (p.2 = q.2 + 2 ∨ q.2 = p.2 + 2))

/-- A room cell: in bounds with both coordinates even. -/
def isRoom (rows cols : ℤ) (p : Cell) : Prop :=
  inB rows cols p ∧ 2 ∣ p.1 ∧ 2 ∣ p.2

/-- A corridor slot: in bounds with exactly one odd coordinate. -/
def isCorr (rows cols : ℤ) (p : Cell) : Prop :=
  inB rows cols p ∧ ((2 ∣ p.1 ∧ ¬2 ∣ p.2) ∨ (¬2 ∣ p.1 ∧ 2 ∣ p.2))

/-- `p`'s backpointer entry in table `bk` is `q`. -/
def backEdge (bk : BackTable) (p q : Cell) : Prop := get2 bk p.1 p.2 = some (some q)

/-- Iterating the backpointer table `n` times from `p`. -/
def backIter (bk : BackTable) : ℕ → Cell → Option Cell
  | 0, p => some p
  | n + 1, p =>
    match get2 bk p.1 p.2 with
    | some (some q) => backIter bk n q
    | _ => none

theorem two_mul_fdiv (a : ℤ) : (2 * a).fdiv 2 = a :=
  Int.mul_fdiv_cancel_left _ (by norm_num)

theorem midCell_dist2 {p q : Cell} (h : dist2 p q) :
    2 * (Maze.midCell p q).1 = p.1 + q.1 ∧ 2 * (Maze.midCell p q).2 = p.2 + q.2 := by
  unfold Maze.midCell
  rcases h with ⟨h1, h2 | h2⟩ | ⟨h1, h2 | h2⟩
  · rw [show p.1 + q.1 = 2 * (q.1 + 1) from by omega, show p.2 + q.2 = 2 * q.2 from by omega,
      two_mul_fdiv, two_mul_fdiv]
    exact ⟨rfl, rfl⟩
  · rw [show p.1 + q.1 = 2 * (p.1 + 1) from by omega, show p.2 + q.2 = 2 * q.2 from by omega,
      two_mul_fdiv, two_mul_fdiv]
    exact ⟨rfl, rfl⟩
  · rw [show p.1 + q.1 = 2 * q.1 from by omega, show p.2 + q.2 = 2 * (q.2 + 1) from by omega,
      two_mul_fdiv, two_mul_fdiv]
    exact ⟨rfl, rfl⟩
  · rw [show p.1 + q.1 = 2 * q.1 from by omega, show p.2 + q.2 = 2 * (p.2 + 1) from by omega,
      two_mul_fdiv, two_mul_fdiv]
    exact ⟨rfl, rfl⟩

theorem manh_mid_left {p q : Cell} (h : dist2 p q) : manh p (Maze.midCell p q) = 1 := by
  have := midCell_dist2 h
  unfold manh
  rcases h with ⟨h1, h2 | h2⟩ | ⟨h1, h2 | h2⟩ <;> omega

theorem manh_mid_right {p q : Cell} (h : dist2 p q) : manh (Maze.midCell p q) q = 1 := by
  have := midCell_dist2 h
  unfold manh
  rcases h with ⟨h1, h2 | h2⟩ | ⟨h1, h2 | h2⟩ <;> omega

theorem mid_isCorr {rows cols : ℤ} {p q : Cell} (hp : isRoom rows cols p)
    (hq : isRoom rows cols q) (h : dist2 p q) : isCorr rows cols (Maze.midCell p q) := by
  have hm := midCell_dist2 h
  obtain ⟨⟨hp1, hp2, hp3, hp4⟩, hp5, hp6⟩ := hp
  obtain ⟨⟨hq1, hq2, hq3, hq4⟩, hq5, hq6⟩ := hq
  constructor
  · constructor
    · omega
    · refine ⟨by omega, by omega, by omega⟩
  · rcases h with ⟨h1, h2⟩ | ⟨h1, h2⟩
    · right
      constructor <;> omega
    · left
      constructor <;> omega

/-- A room cell adjacent (distance 1) to the midpoint of a distance-2 pair
of rooms is one of the two endpoints. -/
theorem adj_mid_eq {p q x : Cell} (hpe : 2 ∣ p.1 ∧ 2 ∣ p.2) (h : dist2 p q)
    (hxe : 2 ∣ x.1 ∧ 2 ∣ x.2) (hx : manh x (Maze.midCell p q) = 1) : x = p ∨ x = q := by
  have hm := midCell_dist2 h
  unfold manh at hx
  rcases h with ⟨h1, h2 | h2⟩ | ⟨h1, h2 | h2⟩ <;>
  · rcases hxe with ⟨hx1, hx2⟩
    rcases hpe with ⟨hp1, hp2⟩
    have : (x.1 = p.1 ∧ x.2 = p.2) ∨ (x.1 = q.1 ∧ x.2 = q.2) := by omega
    rcases this with ⟨e1, e2⟩ | ⟨e1, e2⟩
    · exact Or.inl (Prod.ext e1 e2)
    · exact Or.inr (Prod.ext e1 e2)

/-- Two backpointer edges with the same midpoint join the same two rooms. -/
theorem mid_inj {p q p' q' : Cell} (hpe : 2 ∣ p.1 ∧ 2 ∣ p.2) (hqe : 2 ∣ q.1 ∧ 2 ∣ q.2)
    (hpe' : 2 ∣ p'.1 ∧ 2 ∣ p'.2) (h : dist2 p q) (h' : dist2 p' q')
    (he : Maze.midCell p q = Maze.midCell p' q') :
    (p = p' ∧ q = q') ∨ (p = q' ∧ q = p') := by
  have hm := midCell_dist2 h
  have hm' := midCell_dist2 h'
  rw [he] at hm
  have e1 : p.1 + q.1 = p'.1 + q'.1 := by omega
  have e2 : p.2 + q.2 = p'.2 + q'.2 := by omega
  rcases h with ⟨a1, a2 | a2⟩ | ⟨a1, a2 | a2⟩ <;> rcases h' with ⟨b1, b2 | b2⟩ | ⟨b1, b2 | b2⟩ <;>
  · rcases hpe with ⟨c1, c2⟩
    rcases hqe with ⟨c3, c4⟩
    rcases hpe' with ⟨c5, c6⟩
    have : (p.1 = p'.1 ∧ p.2 = p'.2 ∧ q.1 = q'.1 ∧ q.2 = q'.2) ∨
        (p.1 = q'.1 ∧ p.2 = q'.2 ∧ q.1 = p'.1 ∧ q.2 = p'.2) := by omega
    rcases this with ⟨e1, e2, e3, e4⟩ | ⟨e1, e2, e3, e4⟩
    · exact Or.inl ⟨Prod.ext e1 e2, Prod.ext e3 e4⟩
    · exact Or.inr ⟨Prod.ext e1 e2, Prod.ext e3 e4⟩

/-! ### Characterizing one generator step -/

namespace Maze

theorem mem_neighbors {p : Cell} {r c : ℤ} : p ∈ neighbors r c ↔ dist2 p (r, c) := by
  simp only [neighbors, List.mem_cons, List.not_mem_nil, or_false, Prod.ext_iff, dist2]
  omega

theorem mem_childrenOf {rows cols : ℤ} {visited : Finset Cell} {r c : ℤ} {p : Cell} :
    p ∈ childrenOf rows cols visited r c ↔
      dist2 p (r, c) ∧ inB rows cols p ∧ p ∉ visited := by
  simp only [childrenOf, List.mem_filter, mem_neighbors, decide_eq_true_eq, inB]
  tauto

theorem chosenChild_mem {rows cols : ℤ} {rng : ℕ → ℕ} {st : GenState} {cell : Cell}
    (h : childrenOf rows cols (insert cell st.visited) cell.1 cell.2 ≠ []) :
    chosenChild rows cols rng st cell h ∈
      childrenOf rows cols (insert cell st.visited) cell.1 cell.2 :=
  List.get_mem _ _ _

theorem genStep_pop {rows cols : ℤ} {rng : ℕ → ℕ} {st : GenState} {cell : Cell}
    {rest : List Cell} {board' : Board}
    (hstack : st.stack = cell :: rest)
    (hset : set2 st.board cell.1 cell.2 SPACE = some board')
    (hch : childrenOf rows cols (insert cell st.visited) cell.1 cell.2 = []) :
    genStep rows cols rng st = some (popState st cell rest board') := by
  unfold genStep
  rw [hstack]
  simp only []
  rw [hset]
  simp only []
  rw [dif_pos hch]

theorem genStep_push {rows cols : ℤ} {rng : ℕ → ℕ} {st : GenState} {cell : Cell}
    {rest : List Cell} {board' board'' : Board} {back' : BackTable}
    (hstack : st.stack = cell :: rest)
    (hset : set2 st.board cell.1 cell.2 SPACE = some board')
    (hch : childrenOf rows cols (insert cell st.visited) cell.1 cell.2 ≠ [])
    (hset2 : set2 board' (midCell cell (chosenChild rows cols rng st cell hch)).1
      (midCell cell (chosenChild rows cols rng st cell hch)).2 SPACE = some board'')
    (hset3 : set2 st.back (chosenChild rows cols rng st cell hch).1
      (chosenChild rows cols rng st cell hch).2 (some (cell.1, cell.2)) = some back') :
    genStep rows cols rng st =
      some (pushState st cell (chosenChild rows cols rng st cell hch) board'' back') := by
  unfold genStep
  rw [hstack]
  simp only []
  rw [hset]
  simp only []
  rw [dif_neg hch]
  rw [hset2]
  simp only []
  rw [hset3]

theorem genStep_elim {rows cols : ℤ} {rng : ℕ → ℕ} {st st' : GenState}
    (h : genStep rows cols rng st = some st') :
    ∃ cell rest board', st.stack = cell :: rest ∧
      set2 st.board cell.1 cell.2 SPACE = some board' ∧
      ((childrenOf rows cols (insert cell st.visited) cell.1 cell.2 = [] ∧
        st' = popState st cell rest board') ∨
       (∃ (hch : childrenOf rows cols (insert cell st.visited) cell.1 cell.2 ≠ [])
          (board'' : Board) (back' : BackTable),
        set2 board' (midCell cell (chosenChild rows cols rng st cell hch)).1
          (midCell cell (chosenChild rows cols rng st cell hch)).2 SPACE = some board'' ∧
        set2 st.back (chosenChild rows cols rng st cell hch).1
          (chosenChild rows cols rng st cell hch).2 (some (cell.1, cell.2)) = some back' ∧
        st' = pushState st cell (chosenChild rows cols rng st cell hch) board'' back')) := by
  unfold genStep at h
  cases hstack : st.stack with
  | nil =>
    rw [hstack] at h
    exact absurd h (by simp)
  | cons cell rest =>
    rw [hstack] at h
    simp only [] at h
    refine ⟨cell, rest, ?_⟩
    cases hset : set2 st.board cell.1 cell.2 SPACE with
    | none =>
      rw [hset] at h
      exact absurd h (by simp)
    | some board' =>
      rw [hset] at h
      simp only [] at h
      refine ⟨board', rfl, rfl, ?_⟩
      by_cases hch : childrenOf rows cols (insert cell st.visited) cell.1 cell.2 = []
      · rw [dif_pos hch] at h
        left
        exact ⟨hch, (Option.some.injEq _ _ ▸ h).symm⟩
      · rw [dif_neg hch] at h
        right
        refine ⟨hch, ?_⟩
        cases hset2 : set2 board' (midCell cell (chosenChild rows cols rng st cell hch)).1
            (midCell cell (chosenChild rows cols rng st cell hch)).2 SPACE with
        | none =>
          rw [hset2] at h
          exact absurd h (by simp)
        | some board'' =>
          rw [hset2] at h
          simp only [] at h
          cases hset3 : set2 st.back (chosenChild rows cols rng st cell hch).1
              (chosenChild rows cols rng st cell hch).2 (some (cell.1, cell.2)) with
          | none =>
            rw [hset3] at h
            exact absurd h (by simp)
          | some back' =>
            rw [hset3] at h
            simp only [Option.some.injEq] at h
            exact ⟨board'', back', rfl, rfl, h.symm⟩

/-! ### The termination measure of the generation loop -/

/-- Bonus term: 0 when the stack top is a fresh in-bounds cell, else 2. -/
def bonus (rows cols : ℤ) (st : GenState) : ℕ :=
  match st.stack with
  | [] => 2
  | hd :: _ => if hd ∈ boundsF rows cols ∧ hd ∉ st.visited then 0 else 2

/-- Termination measure: strictly decreases at every loop iteration. -/
def measureG (rows cols : ℤ) (st : GenState) : ℕ :=
  3 * ((boundsF rows cols) \ st.visited).card + st.stack.length + bonus rows cols st

theorem bonus_le (rows cols : ℤ) (st : GenState) : bonus rows cols st ≤ 2 := by
  unfold bonus
  cases st.stack with
  | nil => exact le_refl 2
  | cons hd tl =>
    simp only []
    split
    · exact Nat.zero_le 2
    · exact le_refl 2

theorem genStep_measure {rows cols : ℤ} {rng : ℕ → ℕ} {st st' : GenState}
    (h : genStep rows cols rng st = some st') :
    measureG rows cols st' < measureG rows cols st := by
  obtain ⟨cell, rest, board', hstack, hset, hcase⟩ := genStep_elim h
  have hsd : boundsF rows cols \ insert cell st.visited
      = (boundsF rows cols \ st.visited).erase cell := Finset.sdiff_insert _ _ _
  have hb : bonus rows cols st
      = if cell ∈ boundsF rows cols ∧ cell ∉ st.visited then 0 else 2 := by
    unfold bonus
    rw [hstack]
  have e3 : st.stack.length = rest.length + 1 := by rw [hstack]; rfl
  by_cases hc : cell ∈ boundsF rows cols ∧ cell ∉ st.visited
  · have hmem : cell ∈ boundsF rows cols \ st.visited := Finset.mem_sdiff.mpr hc
    have hcard : (boundsF rows cols \ insert cell st.visited).card + 1
        = (boundsF rows cols \ st.visited).card := by
      rw [hsd, Finset.card_erase_of_mem hmem]
      have : 1 ≤ (boundsF rows cols \ st.visited).card := Finset.card_pos.mpr ⟨cell, hmem⟩
      omega
    have hbst : bonus rows cols st = 0 := by rw [hb, if_pos hc]
    rcases hcase with ⟨hch, hst'⟩ | ⟨hch, board'', back', hset2, hset3, hst'⟩
    · subst hst'
      have e1 : measureG rows cols (popState st cell rest board')
          = 3 * (boundsF rows cols \ insert cell st.visited).card + rest.length
            + bonus rows cols (popState st cell rest board') := rfl
      obtain ⟨b, hb2, hbeq⟩ : ∃ b, b ≤ 2 ∧ bonus rows cols (popState st cell rest board') = b :=
        ⟨_, bonus_le _ _ _, rfl⟩
      have e2 : measureG rows cols st
          = 3 * (boundsF rows cols \ st.visited).card + st.stack.length
            + bonus rows cols st := rfl
      rw [e1, e2, e3, hbst, hbeq]
      clear hb h hset hsd hstack e1 e2 e3 hbeq hbst hch hmem hc
      omega
    · subst hst'
      have hchild := mem_childrenOf.mp (@chosenChild_mem rows cols rng st cell hch)
      have hbst' : bonus rows cols (pushState st cell (chosenChild rows cols rng st cell hch)
          board'' back') = 0 := by
        unfold bonus pushState
        simp only []
        rw [if_pos ⟨mem_boundsF.mpr hchild.2.1, hchild.2.2⟩]
      have e1 : measureG rows cols (pushState st cell (chosenChild rows cols rng st cell hch)
            board'' back')
          = 3 * (boundsF rows cols \ insert cell st.visited).card + (st.stack.length + 1)
            + bonus rows cols (pushState st cell (chosenChild rows cols rng st cell hch)
                board'' back') := rfl
      have e2 : measureG rows cols st
          = 3 * (boundsF rows cols \ st.visited).card + st.stack.length
            + bonus rows cols st := rfl
      rw [e1, e2, e3, hbst, hbst']
      omega
  · have hcard : (boundsF rows cols \ insert cell st.visited).card
        = (boundsF rows cols \ st.visited).card := by
      rw [hsd, Finset.erase_eq_of_not_mem (fun hm => hc (Finset.mem_sdiff.mp hm))]
    have hbst : bonus rows cols st = 2 := by rw [hb, if_neg hc]
    rcases hcase with ⟨hch, hst'⟩ | ⟨hch, board'', back', hset2, hset3, hst'⟩
    · subst hst'
      have e1 : measureG rows cols (popState st cell rest board')
          = 3 * (boundsF rows cols \ insert cell st.visited).card + rest.length
            + bonus rows cols (popState st cell rest board') := rfl
      obtain ⟨b, hb2, hbeq⟩ : ∃ b, b ≤ 2 ∧ bonus rows cols (popState st cell rest board') = b :=
        ⟨_, bonus_le _ _ _, rfl⟩
      have e2 : measureG rows cols st
          = 3 * (boundsF rows cols \ st.visited).card + st.stack.length
            + bonus rows cols st := rfl
      rw [e1, e2, e3, hbst, hbeq]
      clear hb h hset hsd hstack e1 e2 e3 hbeq hbst hch hc
      omega
    · subst hst'
      have hchild := mem_childrenOf.mp (@chosenChild_mem rows cols rng st cell hch)
      have hbst' : bonus rows cols (pushState st cell (chosenChild rows cols rng st cell hch)
          board'' back') = 0 := by
        unfold bonus pushState
        simp only []
        rw [if_pos ⟨mem_boundsF.mpr hchild.2.1, hchild.2.2⟩]
      have e1 : measureG rows cols (pushState st cell (chosenChild rows cols rng st cell hch)
            board'' back')
          = 3 * (boundsF rows cols \ insert cell st.visited).card + (st.stack.length + 1)
            + bonus rows cols (pushState st cell (chosenChild rows cols rng st cell hch)
                board'' back') := rfl
      have e2 : measureG rows cols st
          = 3 * (boundsF rows cols \ st.visited).card + st.stack.length
            + bonus rows cols st := rfl
      rw [e1, e2, e3, hbst, hbst']
      omega

theorem genLoop_succ_nil {rows cols : ℤ} {rng : ℕ → ℕ} {fuel : ℕ} {st : GenState}
    (h : st.stack = []) :
    genLoop rows cols rng (fuel + 1) st = some (st.board, st.back, st.endCell) := by
  unfold genLoop
  rw [h]

theorem genLoop_succ_cons {rows cols : ℤ} {rng : ℕ → ℕ} {fuel : ℕ} {st st' : GenState}
    {cell : Cell} {rest : List Cell}
    (h : st.stack = cell :: rest) (hstep : genStep rows cols rng st = some st') :
    genLoop rows cols rng (fuel + 1) st = genLoop rows cols rng fuel st' := by
  have e : genLoop rows cols rng (fuel + 1) st =
      (match st.stack with
       | [] => some (st.board, st.back, st.endCell)
       | _ :: _ =>
         match genStep rows cols rng st with
         | none => none
         | some st2 => genLoop rows cols rng fuel st2) := rfl
  rw [e, h]
  simp only []
  rw [hstep]

end Maze

/-! ### Helper lemmas for the loop invariant -/

theorem get2_set2_cases {α : Type} {b b' : List (List α)} {r c : ℤ} {v : α}
    (h : set2 b r c v = some b') (r' c' : ℤ) :
    get2 b' r' c' = get2 b r' c' ∨ (r' = r ∧ c' = c ∧ get2 b' r' c' = some v) := by
  by_cases hr : r' = r
  · by_cases hc : c' = c
    · subst hr
      subst hc
      exact Or.inr ⟨rfl, rfl, get2_set2_self h⟩
    · exact Or.inl (get2_set2_ne h (Or.inr hc))
  · exact Or.inl (get2_set2_ne h (Or.inl hr))

theorem backEdge_set2 {bk bk' : BackTable} {child c0 : Cell}
    (h : set2 bk child.1 child.2 (some c0) = some bk') (a b : Cell) :
    backEdge bk' a b ↔ ((a = child ∧ b = c0) ∨ (a ≠ child ∧ backEdge bk a b)) := by
  unfold backEdge
  by_cases ha : a = child
  · subst ha
    rw [get2_set2_self h]
    constructor
    · intro hb
      injection hb with hb1
      injection hb1 with hb2
      exact Or.inl ⟨rfl, hb2.symm⟩
    · rintro (⟨-, hb⟩ | ⟨hne, -⟩)
      · rw [hb]
      · exact absurd rfl hne
  · have hne : a.1 ≠ child.1 ∨ a.2 ≠ child.2 := by
      by_contra hcon
      push_neg at hcon
      exact ha (Prod.ext hcon.1 hcon.2)
    rw [get2_set2_ne h hne]
    constructor
    · intro hb
      exact Or.inr ⟨ha, hb⟩
    · rintro (⟨he, -⟩ | ⟨-, hb⟩)
      · exact absurd he ha
      · exact hb

theorem chain'_of_ne {R S : Cell → Cell → Prop} :
    ∀ (l : List Cell) (x : Cell), (∀ p ∈ l, p ≠ x) →
      (∀ a b, a ≠ x → R a b → S a b) → l.Chain' R → l.Chain' S := by
  intro l x hne himp hch
  induction l with
  | nil => exact List.chain'_nil
  | cons a l ih =>
    cases l with
    | nil => exact List.chain'_singleton a
    | cons b l2 =>
      rw [List.chain'_cons] at hch ⊢
      refine ⟨himp a b (hne a (by simp)) hch.1, ih (fun p hp => hne p (by simp [hp])) hch.2⟩

theorem room_of_dist2 {rows cols : ℤ} {p q : Cell} (hq : 2 ∣ q.1 ∧ 2 ∣ q.2)
    (h : dist2 p q) (hin : inB rows cols p) : isRoom rows cols p := by
  refine ⟨hin, ?_, ?_⟩
  · rcases h with ⟨h1, h2 | h2⟩ | ⟨h1, h2⟩ <;> omega
  · rcases h with ⟨h1, h2⟩ | ⟨h1, h2 | h2⟩ <;> omega

theorem start_isRoom {rows cols : ℤ} (hr : 1 ≤ rows) (hc : 1 ≤ cols) :
    isRoom rows cols Maze.START_CELL := by
  refine ⟨⟨?_, ?_, ?_, ?_⟩, ?_, ?_⟩ <;> simp [Maze.START_CELL] <;> omega

theorem corr_ne_room {rows cols : ℤ} {w p : Cell} (hw : isCorr rows cols w)
    (hp : 2 ∣ p.1 ∧ 2 ∣ p.2) : w ≠ p := by
  intro he
  subst he
  rcases hw.2 with ⟨h1, h2⟩ | ⟨h1, h2⟩
  · exact h2 hp.2
  · exact h1 hp.1

/-! ### The loop invariant of `generate_board` -/

/-- Invariant maintained by every iteration of the generation loop. -/
structure GenInv (rows cols : ℤ) (st : Maze.GenState) : Prop where
  boardRect : Rect st.board rows cols
  backRect : Rect st.back rows cols
  boardVals : ∀ (p : Cell) (v : ℕ), get2 st.board p.1 p.2 = some v → v = Maze.WALL ∨ v = Maze.SPACE
  spaceIff : ∀ p : Cell, get2 st.board p.1 p.2 = some Maze.SPACE ↔
      (p ∈ st.visited ∨ ∃ a b, backEdge st.back a b ∧ p = Maze.midCell a b)
  visitedRoom : ∀ p ∈ st.visited, isRoom rows cols p
  edgeProps : ∀ p q, backEdge st.back p q → dist2 p q ∧ q ∈ st.visited ∧
      isRoom rows cols p ∧ p ≠ Maze.START_CELL ∧ (p ∈ st.visited ∨ st.stack.head? = some p)
  grade : ∃ d : Cell → ℕ, ∀ p q, backEdge st.back p q → d p = d q + 1
  backSome : ∀ p ∈ st.visited, p ≠ Maze.START_CELL → ∃ q, backEdge st.back p q
  stackChain : st.stack.Chain' (backEdge st.back)
  stackLast : ∀ x, st.stack.getLast? = some x → x = Maze.START_CELL
  stackRoom : ∀ p ∈ st.stack, isRoom rows cols p
  stackTailVis : ∀ p ∈ st.stack.tail, p ∈ st.visited
  maxInit : st.visited = ∅ → st.maxLength = 0
  endVis : st.visited = ∅ ∨ (st.endCell ∈ st.visited ∧ Maze.START_CELL ∈ st.visited)
  nonTriv : st.stack = [] → st.endCell ∈ st.visited ∧ Maze.START_CELL ∈ st.visited

theorem initState_inv {rows cols : ℤ} (hr : 1 ≤ rows) (hc : 1 ≤ cols) :
    GenInv rows cols (Maze.initState rows cols) := by
  have hback : ∀ a b, ¬ backEdge (Maze.initState rows cols).back a b := by
    intro a b hab
    have := get2_mem hab
    rcases this with ⟨row, hrow, hmem⟩
    rw [List.eq_of_mem_replicate hrow] at hmem
    exact Option.noConfusion (List.eq_of_mem_replicate hmem)
  have hboard : ∀ (p : Cell) (v : ℕ), get2 (Maze.initState rows cols).board p.1 p.2 = some v →
      v = Maze.WALL := by
    intro p v hv
    exact get2_replicate hv
  constructor
  case boardRect => exact rect_replicate
  case backRect => exact rect_replicate
  case boardVals => exact fun p v hv => Or.inl (hboard p v hv)
  case spaceIff =>
    intro p
    constructor
    · intro hv
      have := hboard p _ hv
      exact absurd this.symm (by simp [Maze.WALL, Maze.SPACE])
    · rintro (hp | ⟨a, b, hab, -⟩)
      · exact absurd hp (by simp [Maze.initState])
      · exact absurd hab (hback a b)
  case visitedRoom =>
    intro p hp
    exact absurd hp (by simp [Maze.initState])
  case edgeProps => exact fun p q hpq => absurd hpq (hback p q)
  case grade => exact ⟨fun _ => 0, fun p q hpq => absurd hpq (hback p q)⟩
  case backSome =>
    intro p hp
    exact absurd hp (by simp [Maze.initState])
  case stackChain => exact List.chain'_singleton _
  case stackLast =>
    intro x hx
    simp only [Maze.initState, List.getLast?_singleton, Option.some.injEq] at hx
    exact hx.symm
  case stackRoom =>
    intro p hp
    simp only [Maze.initState, List.mem_singleton] at hp
    exact hp ▸ start_isRoom hr hc
  case stackTailVis =>
    intro p hp
    exact absurd hp (by simp [Maze.initState])
  case maxInit => exact fun _ => rfl
  case endVis => exact Or.inl rfl
  case nonTriv =>
    intro hempty
    exact absurd hempty (by simp [Maze.initState])

theorem start_mem_insert {rows cols : ℤ} {st : Maze.GenState} {cell : Cell} {rest : List Cell}
    (hinv : GenInv rows cols st) (hstack : st.stack = cell :: rest) :
    Maze.START_CELL ∈ insert cell st.visited := by
  cases hres : rest with
  | nil =>
    have hl : st.stack.getLast? = some cell := by
      rw [hstack, hres]
      rfl
    rw [← hinv.stackLast cell hl]
    exact Finset.mem_insert_self _ _
  | cons r0 rs =>
    have hne : (r0 :: rs : List Cell) ≠ [] := List.cons_ne_nil _ _
    have hx : (r0 :: rs).getLast? = some ((r0 :: rs).getLast hne) :=
      List.getLast?_eq_getLast _ hne
    have h1 : st.stack.getLast? = some ((r0 :: rs).getLast hne) := by
      rw [hstack, hres, List.getLast?_cons_cons]
      exact hx
    have hxs := hinv.stackLast _ h1
    have hmem : (r0 :: rs).getLast hne ∈ st.stack.tail := by
      rw [hstack, hres]
      exact List.getLast_mem hne
    have := hinv.stackTailVis _ hmem
    rw [← hxs]
    exact Finset.mem_insert_of_mem this

theorem inv_pop {rows cols : ℤ} {st : Maze.GenState} {cell : Cell} {rest : List Cell}
    {board' : Board} (hinv : GenInv rows cols st)
    (hstack : st.stack = cell :: rest)
    (hset : set2 st.board cell.1 cell.2 Maze.SPACE = some board') :
    GenInv rows cols (Maze.popState st cell rest board') := by
  have hcellmem : cell ∈ st.stack := by
    rw [hstack]
    exact List.mem_cons_self _ _
  have hcellRoom : isRoom rows cols cell := hinv.stackRoom cell hcellmem
  have hstartV : Maze.START_CELL ∈ insert cell st.visited := start_mem_insert hinv hstack
  have hbv : ∀ (p : Cell) (v : ℕ), get2 board' p.1 p.2 = some v →
      (p = cell ∧ v = Maze.SPACE) ∨ get2 st.board p.1 p.2 = some v := by
    intro p v hv
    rcases get2_set2_cases hset p.1 p.2 with he | ⟨h1, h2, he⟩
    · right
      rw [← he]
      exact hv
    · left
      rw [he] at hv
      injection hv with hv
      exact ⟨Prod.ext h1 h2, hv.symm⟩
  have hspace' : ∀ p : Cell, get2 board' p.1 p.2 = some Maze.SPACE ↔
      (p = cell ∨ get2 st.board p.1 p.2 = some Maze.SPACE) := by
    intro p
    constructor
    · intro hv
      rcases hbv p _ hv with ⟨hp, -⟩ | hold
      · exact Or.inl hp
      · exact Or.inr hold
    · rintro (hp | hold)
      · subst hp
        exact get2_set2_self hset
      · rcases get2_set2_cases hset p.1 p.2 with he | ⟨-, -, he⟩
        · rw [he]
          exact hold
        · exact he
  -- the end cell of the popped state is in the new visited set
  have hend : (Maze.popState st cell rest board').endCell ∈ insert cell st.visited := by
    show (if st.stack.length > st.maxLength then cell else st.endCell) ∈ insert cell st.visited
    by_cases hlen : st.stack.length > st.maxLength
    · rw [if_pos hlen]
      exact Finset.mem_insert_self _ _
    · rw [if_neg hlen]
      rcases hinv.endVis with hemp | ⟨he, -⟩
      · exfalso
        have := hinv.maxInit hemp
        rw [hstack] at hlen
        simp only [List.length_cons] at hlen
        omega
      · exact Finset.mem_insert_of_mem he
  constructor
  case boardRect => exact set2_rect hset hinv.boardRect
  case backRect => exact hinv.backRect
  case boardVals =>
    intro p v hv
    rcases hbv p v hv with ⟨-, hv'⟩ | hold
    · exact Or.inr hv'
    · exact hinv.boardVals p v hold
  case spaceIff =>
    intro p
    show get2 board' p.1 p.2 = some Maze.SPACE ↔
      (p ∈ insert cell st.visited ∨ ∃ a b, backEdge st.back a b ∧ p = Maze.midCell a b)
    rw [hspace' p, hinv.spaceIff p]
    simp only [Finset.mem_insert]
    tauto
  case visitedRoom =>
    intro p hp
    rcases Finset.mem_insert.mp hp with hp | hp
    · exact hp ▸ hcellRoom
    · exact hinv.visitedRoom p hp
  case edgeProps =>
    intro p q hpq
    obtain ⟨h1, h2, h3, h4, h5⟩ := hinv.edgeProps p q hpq
    refine ⟨h1, Finset.mem_insert_of_mem h2, h3, h4, ?_⟩
    rcases h5 with h5 | h5
    · exact Or.inl (Finset.mem_insert_of_mem h5)
    · rw [hstack] at h5
      injection h5 with h5
      exact Or.inl (h5 ▸ Finset.mem_insert_self _ _)
  case grade => exact hinv.grade
  case backSome =>
    intro p hp hpne
    rcases Finset.mem_insert.mp hp with hp | hp
    · subst hp
      cases hres : rest with
      | nil =>
        exfalso
        have hl : st.stack.getLast? = some p := by
          rw [hstack, hres]
          rfl
        exact hpne (hinv.stackLast p hl)
      | cons r0 rs =>
        have hch := hinv.stackChain
        rw [hstack, hres, List.chain'_cons] at hch
        exact ⟨r0, hch.1⟩
    · exact hinv.backSome p hp hpne
  case stackChain =>
    have := hinv.stackChain
    rw [hstack] at this
    exact this.tail
  case stackLast =>
    intro x hx
    have hne : rest ≠ [] := by
      intro h
      rw [h] at hx
      exact Option.noConfusion hx
    refine hinv.stackLast x ?_
    cases hres : rest with
    | nil => exact absurd hres hne
    | cons r0 rs =>
      rw [hstack, hres, List.getLast?_cons_cons]
      rw [hres] at hx
      exact hx
  case stackRoom =>
    intro p hp
    refine hinv.stackRoom p ?_
    rw [hstack]
    exact List.mem_cons_of_mem _ hp
  case stackTailVis =>
    intro p hp
    have : p ∈ st.stack.tail := by
      rw [hstack]
      exact List.mem_of_mem_tail hp
    exact Finset.mem_insert_of_mem (hinv.stackTailVis p this)
  case maxInit =>
    intro h
    exact absurd h (Finset.insert_ne_empty _ _)
  case endVis => exact Or.inr ⟨hend, hstartV⟩
  case nonTriv => exact fun _ => ⟨hend, hstartV⟩

theorem dist2_symm {p q : Cell} (h : dist2 p q) : dist2 q p := by
  rcases h with ⟨h1, h2⟩ | ⟨h1, h2⟩
  · exact Or.inl ⟨h1.symm, h2.symm⟩
  · exact Or.inr ⟨h1.symm, h2.symm⟩

theorem midCell_comm (p q : Cell) : Maze.midCell p q = Maze.midCell q p := by
  unfold Maze.midCell
  rw [add_comm p.1 q.1, add_comm p.2 q.2]

theorem inv_push {rows cols : ℤ} {st : Maze.GenState} {cell child : Cell} {rest : List Cell}
    {board' board'' : Board} {back' : BackTable}
    (hinv : GenInv rows cols st)
    (hstack : st.stack = cell :: rest)
    (hset : set2 st.board cell.1 cell.2 Maze.SPACE = some board')
    (hchild : dist2 child cell ∧ inB rows cols child ∧ child ∉ insert cell st.visited)
    (hset2 : set2 board' (Maze.midCell cell child).1 (Maze.midCell cell child).2 Maze.SPACE
      = some board'')
    (hset3 : set2 st.back child.1 child.2 (some (cell.1, cell.2)) = some back') :
    GenInv rows cols (Maze.pushState st cell child board'' back') := by
  have hcellmem : cell ∈ st.stack := by
    rw [hstack]
    exact List.mem_cons_self _ _
  have hcellRoom : isRoom rows cols cell := hinv.stackRoom cell hcellmem
  have hstartV : Maze.START_CELL ∈ insert cell st.visited := start_mem_insert hinv hstack
  have hchildRoom : isRoom rows cols child :=
    room_of_dist2 hcellRoom.2 hchild.1 hchild.2.1
  have hchildNe : child ≠ cell := by
    intro he
    rcases hchild.1 with ⟨h1, h2 | h2⟩ | ⟨h1, h2 | h2⟩ <;> rw [he] at h2 <;> omega
  have hchildNV : child ∉ st.visited := fun h => hchild.2.2 (Finset.mem_insert_of_mem h)
  have hchildStart : child ≠ Maze.START_CELL := fun he => hchild.2.2 (he ▸ hstartV)
  have noOldEdge : ∀ b, ¬ backEdge st.back child b := by
    intro b hb
    obtain ⟨-, -, -, -, h5⟩ := hinv.edgeProps child b hb
    rcases h5 with h5 | h5
    · exact hchildNV h5
    · rw [hstack] at h5
      injection h5 with h5
      exact hchildNe h5.symm
  have hedge : ∀ a b, backEdge back' a b ↔
      ((a = child ∧ b = (cell.1, cell.2)) ∨ (a ≠ child ∧ backEdge st.back a b)) :=
    backEdge_set2 hset3
  have hcc : ((cell.1, cell.2) : Cell) = cell := rfl
  have hwmid : Maze.midCell child (cell.1, cell.2) = Maze.midCell cell child := by
    rw [hcc]
    exact midCell_comm child cell
  have hd2 : dist2 cell child := dist2_symm hchild.1
  have hwCorr : isCorr rows cols (Maze.midCell cell child) :=
    mid_isCorr hcellRoom hchildRoom hd2
  have hwNeCell : Maze.midCell cell child ≠ cell := corr_ne_room hwCorr hcellRoom.2
  -- characterization of values in board''
  have hbv2 : ∀ (p : Cell) (v : ℕ), get2 board'' p.1 p.2 = some v →
      (p = cell ∧ v = Maze.SPACE) ∨ (p = Maze.midCell cell child ∧ v = Maze.SPACE) ∨
        get2 st.board p.1 p.2 = some v := by
    intro p v hv
    rcases get2_set2_cases hset2 p.1 p.2 with he | ⟨h1, h2, he⟩
    · rw [he] at hv
      rcases get2_set2_cases hset p.1 p.2 with he2 | ⟨h3, h4, he2⟩
      · right
        right
        rw [← he2]
        exact hv
      · left
        rw [he2] at hv
        injection hv with hv
        exact ⟨Prod.ext h3 h4, hv.symm⟩
    · right
      left
      rw [he] at hv
      injection hv with hv
      exact ⟨Prod.ext h1 h2, hv.symm⟩
  have hspace2 : ∀ p : Cell, get2 board'' p.1 p.2 = some Maze.SPACE ↔
      (p = cell ∨ p = Maze.midCell cell child ∨
        get2 st.board p.1 p.2 = some Maze.SPACE) := by
    intro p
    constructor
    · intro hv
      rcases hbv2 p _ hv with ⟨hp, -⟩ | ⟨hp, -⟩ | hold
      · exact Or.inl hp
      · exact Or.inr (Or.inl hp)
      · exact Or.inr (Or.inr hold)
    · rintro (hp | hp | hold)
      · subst hp
        rcases get2_set2_cases hset2 p.1 p.2 with he | ⟨-, -, he⟩
        · rw [he]
          exact get2_set2_self hset
        · exact he
      · subst hp
        exact get2_set2_self hset2
      · rcases get2_set2_cases hset2 p.1 p.2 with he | ⟨-, -, he⟩
        · rw [he]
          rcases get2_set2_cases hset p.1 p.2 with he2 | ⟨-, -, he2⟩
          · rw [he2]
            exact hold
          · exact he2
        · exact he
  have hend : (Maze.pushState st cell child board'' back').endCell ∈ insert cell st.visited := by
    show (if st.stack.length > st.maxLength then cell else st.endCell) ∈ insert cell st.visited
    by_cases hlen : st.stack.length > st.maxLength
    · rw [if_pos hlen]
      exact Finset.mem_insert_self _ _
    · rw [if_neg hlen]
      rcases hinv.endVis with hemp | ⟨he, -⟩
      · exfalso
        have := hinv.maxInit hemp
        rw [hstack] at hlen
        simp only [List.length_cons] at hlen
        omega
      · exact Finset.mem_insert_of_mem he
  constructor
  case boardRect => exact set2_rect hset2 (set2_rect hset hinv.boardRect)
  case backRect => exact set2_rect hset3 hinv.backRect
  case boardVals =>
    intro p v hv
    rcases hbv2 p v hv with ⟨-, hv'⟩ | ⟨-, hv'⟩ | hold
    · exact Or.inr hv'
    · exact Or.inr hv'
    · exact hinv.boardVals p v hold
  case spaceIff =>
    intro p
    show get2 board'' p.1 p.2 = some Maze.SPACE ↔
      (p ∈ insert cell st.visited ∨ ∃ a b, backEdge back' a b ∧ p = Maze.midCell a b)
    rw [hspace2 p]
    constructor
    · rintro (hp | hp | hold)
      · exact Or.inl (hp ▸ Finset.mem_insert_self _ _)
      · refine Or.inr ⟨child, (cell.1, cell.2), (hedge _ _).mpr (Or.inl ⟨rfl, rfl⟩), ?_⟩
        rw [hwmid]
        exact hp
      · rcases (hinv.spaceIff p).mp hold with hv | ⟨a, b, hab, hmid⟩
        · exact Or.inl (Finset.mem_insert_of_mem hv)
        · have hane : a ≠ child := by
            intro he
            exact noOldEdge b (he ▸ hab)
          exact Or.inr ⟨a, b, (hedge _ _).mpr (Or.inr ⟨hane, hab⟩), hmid⟩
    · rintro (hp | ⟨a, b, hab, hmid⟩)
      · rcases Finset.mem_insert.mp hp with hp | hp
        · exact Or.inl hp
        · exact Or.inr (Or.inr ((hinv.spaceIff p).mpr (Or.inl hp)))
      · rcases (hedge _ _).mp hab with ⟨ha, hb⟩ | ⟨hane, hab'⟩
        · subst ha
          subst hb
          rw [hwmid] at hmid
          exact Or.inr (Or.inl hmid)
        · exact Or.inr (Or.inr ((hinv.spaceIff p).mpr (Or.inr ⟨a, b, hab', hmid⟩)))
  case visitedRoom =>
    intro p hp
    rcases Finset.mem_insert.mp hp with hp | hp
    · exact hp ▸ hcellRoom
    · exact hinv.visitedRoom p hp
  case edgeProps =>
    intro p q hpq
    rcases (hedge _ _).mp hpq with ⟨hp, hq⟩ | ⟨hane, hpq'⟩
    · subst hp
      subst hq
      refine ⟨hchild.1, Finset.mem_insert_self _ _, hchildRoom, hchildStart, Or.inr rfl⟩
    · obtain ⟨h1, h2, h3, h4, h5⟩ := hinv.edgeProps p q hpq'
      refine ⟨h1, Finset.mem_insert_of_mem h2, h3, h4, ?_⟩
      rcases h5 with h5 | h5
      · exact Or.inl (Finset.mem_insert_of_mem h5)
      · rw [hstack] at h5
        injection h5 with h5
        exact Or.inl (h5 ▸ Finset.mem_insert_self _ _)
  case grade =>
    obtain ⟨d, hd⟩ := hinv.grade
    refine ⟨Function.update d child (d cell + 1), ?_⟩
    intro p q hpq
    rcases (hedge _ _).mp hpq with ⟨hp, hq⟩ | ⟨hane, hpq'⟩
    · rw [hp, hq]
      have hql : ((cell.1, cell.2) : Cell) ≠ child := fun he => hchildNe (hcc ▸ he).symm
      rw [Function.update_same, Function.update_noteq hql]
    · have hqne : q ≠ child := by
        intro he
        exact hchildNV (he ▸ (hinv.edgeProps p q hpq').2.1)
      rw [Function.update_noteq hane, Function.update_noteq hqne]
      exact hd p q hpq'
  case backSome =>
    intro p hp hpne
    rcases Finset.mem_insert.mp hp with hp | hp
    · subst hp
      cases hres : rest with
      | nil =>
        exfalso
        have hl : st.stack.getLast? = some p := by
          rw [hstack, hres]
          rfl
        exact hpne (hinv.stackLast p hl)
      | cons r0 rs =>
        have hch := hinv.stackChain
        rw [hstack, hres, List.chain'_cons] at hch
        have hpne' : p ≠ child := fun he => hchildNe he.symm
        exact ⟨r0, (hedge _ _).mpr (Or.inr ⟨hpne', hch.1⟩)⟩
    · have hpne' : p ≠ child := fun he => hchildNV (he ▸ hp)
      obtain ⟨q, hq⟩ := hinv.backSome p hp hpne
      exact ⟨q, (hedge _ _).mpr (Or.inr ⟨hpne', hq⟩)⟩
  case stackChain =>
    show (child :: st.stack).Chain' (backEdge back')
    rw [hstack]
    rw [List.chain'_cons]
    constructor
    · exact (hedge _ _).mpr (Or.inl ⟨rfl, rfl⟩)
    · have hold := hinv.stackChain
      rw [hstack] at hold
      refine chain'_of_ne (cell :: rest) child ?_ ?_ hold
      · intro p hp
        rcases List.mem_cons.mp hp with hp | hp
        · exact fun he => hchildNe (he.symm.trans hp)
        · intro he
          refine hchildNV ?_
          rw [← he]
          refine hinv.stackTailVis p ?_
          rw [hstack]
          exact hp
      · intro a b hane hab
        exact (hedge _ _).mpr (Or.inr ⟨hane, hab⟩)
  case stackLast =>
    intro x hx
    refine hinv.stackLast x ?_
    have : (child :: st.stack).getLast? = some x := hx
    rw [hstack] at this ⊢
    rw [List.getLast?_cons_cons] at this
    exact this
  case stackRoom =>
    intro p hp
    rcases List.mem_cons.mp hp with hp | hp
    · exact hp ▸ hchildRoom
    · exact hinv.stackRoom p hp
  case stackTailVis =>
    intro p hp
    have hp' : p ∈ st.stack := hp
    rw [hstack] at hp'
    rcases List.mem_cons.mp hp' with hp' | hp'
    · exact hp' ▸ Finset.mem_insert_self _ _
    · refine Finset.mem_insert_of_mem (hinv.stackTailVis p ?_)
      rw [hstack]
      exact hp'
  case maxInit =>
    intro h
    exact absurd h (Finset.insert_ne_empty _ _)
  case endVis => exact Or.inr ⟨hend, hstartV⟩
  case nonTriv =>
    intro h
    exact absurd h (List.cons_ne_nil _ _)

theorem inv_step_some {rows cols : ℤ} {rng : ℕ → ℕ} {st : Maze.GenState} {cell : Cell}
    {rest : List Cell} (hinv : GenInv rows cols st)
    (hstack : st.stack = cell :: rest) :
    ∃ st', Maze.genStep rows cols rng st = some st' ∧ GenInv rows cols st' := by
  have hcellRoom : isRoom rows cols cell := hinv.stackRoom cell (by
    rw [hstack]
    exact List.mem_cons_self _ _)
  obtain ⟨board', hset⟩ : ∃ b', set2 st.board cell.1 cell.2 Maze.SPACE = some b' :=
    set2_isSome_of_rect hinv.boardRect hcellRoom.1
  by_cases hch : Maze.childrenOf rows cols (insert cell st.visited) cell.1 cell.2 = []
  · exact ⟨_, Maze.genStep_pop hstack hset hch, inv_pop hinv hstack hset⟩
  · have hchild0 := Maze.mem_childrenOf.mp (@Maze.chosenChild_mem rows cols rng st cell hch)
    have hchild : dist2 (Maze.chosenChild rows cols rng st cell hch) cell ∧
        inB rows cols (Maze.chosenChild rows cols rng st cell hch) ∧
        Maze.chosenChild rows cols rng st cell hch ∉ insert cell st.visited := hchild0
    have hchildRoom := room_of_dist2 hcellRoom.2 hchild.1 hchild.2.1
    have hwCorr : isCorr rows cols (Maze.midCell cell (Maze.chosenChild rows cols rng st cell hch)) :=
      mid_isCorr hcellRoom hchildRoom (dist2_symm hchild.1)
    obtain ⟨board'', hset2⟩ : ∃ b'', set2 board'
        (Maze.midCell cell (Maze.chosenChild rows cols rng st cell hch)).1
        (Maze.midCell cell (Maze.chosenChild rows cols rng st cell hch)).2 Maze.SPACE
        = some b'' :=
      set2_isSome_of_rect (set2_rect hset hinv.boardRect) hwCorr.1
    obtain ⟨back', hset3⟩ : ∃ bk', set2 st.back
        (Maze.chosenChild rows cols rng st cell hch).1
        (Maze.chosenChild rows cols rng st cell hch).2 (some (cell.1, cell.2)) = some bk' :=
      set2_isSome_of_rect hinv.backRect hchild.2.1
    exact ⟨_, Maze.genStep_push hstack hset hch hset2 hset3,
      inv_push hinv hstack hset hchild hset2 hset3⟩

theorem genLoop_inv {rows cols : ℤ} (rng : ℕ → ℕ) :
    ∀ (fuel : ℕ) (st : Maze.GenState), GenInv rows cols st →
      Maze.measureG rows cols st < fuel →
      ∃ st2, Maze.genLoop rows cols rng fuel st = some (st2.board, st2.back, st2.endCell) ∧
        GenInv rows cols st2 ∧ st2.stack = [] := by
  intro fuel
  induction fuel with
  | zero =>
    intro st _ hm
    omega
  | succ fuel ih =>
    intro st hinv hm
    cases hstack : st.stack with
    | nil => exact ⟨st, Maze.genLoop_succ_nil hstack, hinv, hstack⟩
    | cons cell rest =>
      obtain ⟨st', hstep, hinv'⟩ := inv_step_some hinv hstack
      have hdec := Maze.genStep_measure hstep
      obtain ⟨st2, h2, hinv2, hs2⟩ := ih st' hinv' (by omega)
      exact ⟨st2, (Maze.genLoop_succ_cons hstack hstep).trans h2, hinv2, hs2⟩

/-- For valid dimensions the generator succeeds, and the result is the
output of an invariant-satisfying final state with empty stack. -/
theorem generate_board_spec {rows cols : ℤ} (rng : ℕ → ℕ) (hr : 1 ≤ rows) (hc : 1 ≤ cols) :
    ∃ st2, Maze.generate_board rows cols rng = some (st2.board, st2.back, st2.endCell) ∧
      GenInv rows cols st2 ∧ st2.stack = [] := by
  refine genLoop_inv rng (Maze.genFuel rows cols) (Maze.initState rows cols)
    (initState_inv hr hc) ?_
  have hb := Maze.bonus_le rows cols (Maze.initState rows cols)
  have e1 : Maze.measureG rows cols (Maze.initState rows cols)
      = 3 * ((Maze.boundsF rows cols) \ (∅ : Finset Cell)).card + 1
        + Maze.bonus rows cols (Maze.initState rows cols) := rfl
  rw [e1, Finset.sdiff_empty]
  unfold Maze.genFuel
  omega

/-! ### The open-cell adjacency graph -/

/-- A non-`WALL` cell of a board. -/
def openCell (b : Board) (p : Cell) : Prop :=
  ∃ v, get2 b p.1 p.2 = some v ∧ v ≠ Maze.WALL

theorem manh_comm (p q : Cell) : manh p q = manh q p := by
  unfold manh
  omega

/-- The graph whose vertices are grid cells and whose edges join
grid-adjacent (Manhattan distance 1) non-`WALL` cells. -/
def mazeGraph (b : Board) : SimpleGraph Cell where
  Adj x y := manh x y = 1 ∧ openCell b x ∧ openCell b y
  symm := by
    intro x y h
    refine ⟨?_, h.2.2, h.2.1⟩
    rw [manh_comm]
    exact h.1
  loopless := by
    intro x h
    have := h.1
    unfold manh at this
    omega

theorem get_dir_dist2 {p q : Cell} (h : dist2 q p) :
    ∃ dv, Maze.get_dir p q = some dv ∧ dv ≠ Maze.NO_DIR := by
  unfold Maze.get_dir
  rcases h with ⟨h1, h2 | h2⟩ | ⟨h1, h2 | h2⟩
  · rw [if_pos (by omega : q.1 > p.1)]
    exact ⟨Maze.DOWN, rfl, by decide⟩
  · rw [if_neg (by omega : ¬ q.1 > p.1), if_pos (by omega : q.1 < p.1)]
    exact ⟨Maze.UP, rfl, by decide⟩
  · rw [if_neg (by omega : ¬ q.1 > p.1), if_neg (by omega : ¬ q.1 < p.1),
      if_pos (by omega : q.2 > p.2)]
    exact ⟨Maze.RIGHT, rfl, by decide⟩
  · rw [if_neg (by omega : ¬ q.1 > p.1), if_neg (by omega : ¬ q.1 < p.1),
      if_neg (by omega : ¬ q.2 > p.2), if_pos (by omega : q.2 < p.2)]
    exact ⟨Maze.LEFT, rfl, by decide⟩

/-! ### Claim C4: the direction mapping -/

/-- C4: for positions differing in one coordinate, `get_dir` returns DOWN
when the target row is larger, UP when smaller, RIGHT when the target
column is larger, LEFT when smaller, with the row comparison taking
priority (the row cases hold regardless of the columns); in particular
the four concrete instances from the specification hold. -/
theorem C4_get_dir_spec : ∀ s e : Cell,
    (s.1 < e.1 → Maze.get_dir s e = some Maze.DOWN) ∧
    (e.1 < s.1 → Maze.get_dir s e = some Maze.UP) ∧
    (s.1 = e.1 → s.2 < e.2 → Maze.get_dir s e = some Maze.RIGHT) ∧
    (s.1 = e.1 → e.2 < s.2 → Maze.get_dir s e = some Maze.LEFT) ∧
    Maze.get_dir (0, 0) (1, 0) = some Maze.DOWN ∧
    Maze.get_dir (1, 0) (0, 0) = some Maze.UP ∧
    Maze.get_dir (0, 0) (0, 1) = some Maze.RIGHT ∧
    Maze.get_dir (0, 1) (0, 0) = some Maze.LEFT := by
  intro s e
  refine ⟨?_, ?_, ?_, ?_, by decide, by decide, by decide, by decide⟩
  · intro h
    unfold Maze.get_dir
    rw [if_pos (by omega : e.1 > s.1)]
  · intro h
    unfold Maze.get_dir
    rw [if_neg (by omega : ¬ e.1 > s.1), if_pos (by omega : e.1 < s.1)]
  · intro h1 h2
    unfold Maze.get_dir
    rw [if_neg (by omega : ¬ e.1 > s.1), if_neg (by omega : ¬ e.1 < s.1),
      if_pos (by omega : e.2 > s.2)]
  · intro h1 h2
    unfold Maze.get_dir
    rw [if_neg (by omega : ¬ e.1 > s.1), if_neg (by omega : ¬ e.1 < s.1),
      if_neg (by omega : ¬ e.2 > s.2), if_pos (by omega : e.2 < s.2)]

/-- Witness for C4 at the concrete input `(0,0)`, `(1,0)`. -/
theorem C4_get_dir_spec_witness :
    ((0, 0) : Cell).1 < ((1, 0) : Cell).1 ∧ Maze.get_dir (0, 0) (1, 0) = some Maze.DOWN :=
  ⟨by decide, (C4_get_dir_spec (0, 0) (1, 0)).1 (by decide)⟩

/-! ### Claim C6: UI clamping and actual grid size -/

/-- C6: the UI clamps the requested room counts into
`[MIN_ROWS, MAX_ROWS]` and `[MIN_COLS, MAX_COLS]`, where the maxima are
`(MAX_HEIGHT/MIN_SIZE + 1)/2` and `(MAX_WIDTH/MIN_SIZE + 1)/2` in integer
arithmetic, and then builds the maze on an actual grid of
`2*clamped_rows - 1` by `2*clamped_cols - 1` cells. -/
theorem C6_ui_dimensions : ∀ r c : ℤ,
    MazeUI.MIN_ROWS ≤ MazeUI.clampRows r ∧ MazeUI.clampRows r ≤ MazeUI.MAX_ROWS ∧
    MazeUI.MIN_COLS ≤ MazeUI.clampCols c ∧ MazeUI.clampCols c ≤ MazeUI.MAX_COLS ∧
    MazeUI.MAX_ROWS = (MazeUI.MAX_HEIGHT.fdiv MazeUI.MIN_SIZE + 1).fdiv 2 ∧
    MazeUI.MAX_COLS = (MazeUI.MAX_WIDTH.fdiv MazeUI.MIN_SIZE + 1).fdiv 2 ∧
    MazeUI.clampRows r = max (min r MazeUI.MAX_ROWS) MazeUI.MIN_ROWS ∧
    MazeUI.clampCols c = max (min c MazeUI.MAX_COLS) MazeUI.MIN_COLS ∧
    ∀ rng : ℕ → ℕ, MazeUI.MazeUI_init r c rng =
      Maze.Maze_init (2 * MazeUI.clampRows r - 1) (2 * MazeUI.clampCols c - 1) rng := by
  intro r c
  refine ⟨le_max_right _ _, max_le (le_trans (min_le_right _ _) le_rfl) (by decide),
    le_max_right _ _, max_le (le_trans (min_le_right _ _) le_rfl) (by decide),
    rfl, rfl, rfl, rfl, fun rng => rfl⟩

/-! ### Claim C7: degenerate dimensions fail fast -/

theorem set2_degenerate {rows cols : ℤ} (h : rows ≤ 0 ∨ cols ≤ 0) :
    set2 (Maze.initState rows cols).board Maze.START_CELL.1 Maze.START_CELL.2 Maze.SPACE
      = none := by
  have hb : (Maze.initState rows cols).board
      = List.replicate rows.toNat (List.replicate cols.toNat Maze.WALL) := rfl
  rw [hb]
  cases hn : rows.toNat with
  | zero => rfl
  | succ n =>
    have hcols : cols.toNat = 0 := by
      rcases h with h | h
      · omega
      · omega
    rw [hcols]
    have h1 : pyGet (List.replicate (n + 1) (List.replicate 0 Maze.WALL)) Maze.START_CELL.1
        = some (List.replicate 0 Maze.WALL) := by
      have hlen : Maze.START_CELL.1.toNat <
          (List.replicate (n + 1) (List.replicate 0 Maze.WALL)).length := by
        rw [List.length_replicate]
        exact Nat.succ_pos n
      refine pyGet_eq_some_iff.mpr ⟨hlen, le_rfl, ?_⟩
      exact List.getElem_replicate _ _
    have h2 : pySet (List.replicate 0 Maze.WALL) Maze.START_CELL.2 Maze.SPACE
        = (none : Option (List ℕ)) := by
      unfold pySet
      rw [if_neg]
      rintro ⟨-, hlt⟩
      rw [List.length_replicate] at hlt
      omega
    unfold set2
    rw [h1]
    simp only [Option.some_bind]
    rw [h2]
    rfl

theorem genLoop_succ_cons_none {rows cols : ℤ} {rng : ℕ → ℕ} {fuel : ℕ} {st : Maze.GenState}
    {cell : Cell} {rest : List Cell}
    (h : st.stack = cell :: rest) (hstep : Maze.genStep rows cols rng st = none) :
    Maze.genLoop rows cols rng (fuel + 1) st = none := by
  have e : Maze.genLoop rows cols rng (fuel + 1) st =
      (match st.stack with
       | [] => some (st.board, st.back, st.endCell)
       | _ :: _ =>
         match Maze.genStep rows cols rng st with
         | none => none
         | some st2 => Maze.genLoop rows cols rng fuel st2) := rfl
  rw [e, h]
  simp only []
  rw [hstep]

/-- C7: for `rows ≤ 0` or `cols ≤ 0` the generator (and hence maze
construction) fails fast — modelled by `none`, the image of the Python
`IndexError` raised on the first board write — rather than returning any
board. -/
theorem C7_degenerate_rejected : ∀ (rows cols : ℤ) (rng : ℕ → ℕ),
    rows ≤ 0 ∨ cols ≤ 0 →
    Maze.generate_board rows cols rng = none ∧ Maze.Maze_init rows cols rng = none := by
  intro rows cols rng h
  have hstack : (Maze.initState rows cols).stack = Maze.START_CELL :: [] := rfl
  have hstep : Maze.genStep rows cols rng (Maze.initState rows cols) = none := by
    unfold Maze.genStep
    rw [hstack]
    simp only []
    rw [set2_degenerate h]
  have hgen : Maze.generate_board rows cols rng = none := by
    unfold Maze.generate_board
    obtain ⟨m, hm⟩ : ∃ m, Maze.genFuel rows cols = m + 1 :=
      ⟨3 * (Maze.boundsF rows cols).card + 3, by unfold Maze.genFuel; omega⟩
    rw [hm]
    exact genLoop_succ_cons_none hstack hstep
  refine ⟨hgen, ?_⟩
  unfold Maze.Maze_init
  rw [hgen]

/-- Witness for C7 at `rows = 0`, `cols = 5`. -/
theorem C7_degenerate_rejected_witness :
    ((0 : ℤ) ≤ 0 ∨ (5 : ℤ) ≤ 0) ∧ Maze.generate_board 0 5 (fun _ => 0) = none :=
  ⟨Or.inl le_rfl, (C7_degenerate_rejected 0 5 (fun _ => 0) (Or.inl le_rfl)).1⟩

/-! ### Claim C8: determinism given the random source -/

/-- C8: with the random source an explicit parameter, two runs of
`generate_board` on the same dimensions with the same random stream
return identical boards, backpointer tables and end cells. -/
theorem C8_deterministic : ∀ (rows cols : ℤ) (rng₁ rng₂ : ℕ → ℕ),
    (∀ n, rng₁ n = rng₂ n) →
    Maze.generate_board rows cols rng₁ = Maze.generate_board rows cols rng₂ := by
  intro rows cols rng₁ rng₂ h
  rw [funext h]

/-- Witness for C8 at a concrete stream and dimensions. -/
theorem C8_deterministic_witness :
    (∀ n : ℕ, (fun _ => 0 : ℕ → ℕ) n = (fun _ => 0 : ℕ → ℕ) n) ∧
      Maze.generate_board 3 3 (fun _ => 0) = Maze.generate_board 3 3 (fun _ => 0) :=
  ⟨fun _ => rfl, C8_deterministic 3 3 _ _ (fun _ => rfl)⟩

/-! ### An acyclicity criterion: graded graphs with unique parents -/

/-- A graph is acyclic when it admits a grading `f` such that every edge
connects consecutive levels and the lower endpoint is the unique `par`ent
of the upper one. -/
theorem acyclic_of_grading {VT : Type} [DecidableEq VT] {G : SimpleGraph VT}
    (f : VT → ℕ) (par : VT → VT)
    (hgrade : ∀ x y, G.Adj x y → (f x = f y + 1 ∧ par x = y) ∨ (f y = f x + 1 ∧ par y = x)) :
    G.IsAcyclic := by
  intro v c hc
  have hne : c.support.toFinset.Nonempty := by
    refine ⟨v, ?_⟩
    rw [List.mem_toFinset]
    exact SimpleGraph.Walk.start_mem_support c
  obtain ⟨u, hu, hmax⟩ := Finset.exists_max_image c.support.toFinset f hne
  rw [List.mem_toFinset] at hu
  have hc' : (c.rotate hu).IsCycle := hc.rotate hu
  have hmax' : ∀ x ∈ (c.rotate hu).support, f x ≤ f u := by
    intro x hx
    rcases (SimpleGraph.Walk.mem_support_iff _).mp hx with hx | hx
    · exact hx ▸ le_rfl
    · have hx2 : x ∈ c.support.tail := (SimpleGraph.Walk.support_rotate c hu).mem_iff.mp hx
      refine hmax x ?_
      rw [List.mem_toFinset]
      exact List.mem_of_mem_tail hx2
  have h3len := hc'.three_le_length
  have hnotnil : ¬ (c.rotate hu).Nil := by
    intro hn
    rw [SimpleGraph.Walk.nil_iff_length_eq] at hn
    omega
  obtain ⟨u1, hadj1, p, hpe⟩ := SimpleGraph.Walk.not_nil_iff.mp hnotnil
  have hnotnil2 : ¬ (c.rotate hu).reverse.Nil := by
    intro hn
    rw [SimpleGraph.Walk.nil_iff_length_eq, SimpleGraph.Walk.length_reverse] at hn
    omega
  obtain ⟨w, hadj2, q, hqe⟩ := SimpleGraph.Walk.not_nil_iff.mp hnotnil2
  have hu1 : u1 ∈ (c.rotate hu).support := by
    rw [hpe, SimpleGraph.Walk.support_cons]
    exact List.mem_cons_of_mem _ (SimpleGraph.Walk.start_mem_support p)
  have hw : w ∈ (c.rotate hu).support := by
    have hw0 : w ∈ (c.rotate hu).reverse.support := by
      rw [hqe, SimpleGraph.Walk.support_cons]
      exact List.mem_cons_of_mem _ (SimpleGraph.Walk.start_mem_support q)
    rw [SimpleGraph.Walk.support_reverse] at hw0
    exact List.mem_reverse.mp hw0
  have h1 : par u = u1 := by
    rcases hgrade u u1 hadj1 with ⟨-, hp⟩ | ⟨hf, -⟩
    · exact hp
    · exfalso
      have := hmax' u1 hu1
      omega
  have h2 : par u = w := by
    rcases hgrade u w hadj2 with ⟨-, hp⟩ | ⟨hf, -⟩
    · exact hp
    · exfalso
      have := hmax' w hw
      omega
  have huw : u1 = w := h1 ▸ h2
  have he1 : (c.rotate hu).edges = s(u, u1) :: p.edges := by
    rw [hpe]
    exact SimpleGraph.Walk.edges_cons _ _
  have he2 : (c.rotate hu).edges = q.edges.reverse ++ [s(u, w)] := by
    have hr1 : (c.rotate hu).reverse.edges = s(u, w) :: q.edges := by
      rw [hqe]
      exact SimpleGraph.Walk.edges_cons _ _
    have hr2 : (c.rotate hu).edges.reverse = s(u, w) :: q.edges := by
      rw [← SimpleGraph.Walk.edges_reverse]
      exact hr1
    calc (c.rotate hu).edges = (c.rotate hu).edges.reverse.reverse :=
        (List.reverse_reverse _).symm
    _ = (s(u, w) :: q.edges).reverse := by rw [hr2]
    _ = q.edges.reverse ++ [s(u, w)] := by rw [List.reverse_cons]
  have hlast : (c.rotate hu).edges.getLast? = some (s(u, w)) := by
    rw [he2]
    exact List.getLast?_concat _
  have hnodup : (c.rotate hu).edges.Nodup := hc'.toIsCircuit.toIsTrail.edges_nodup
  have hplen : p.edges.length + 1 = (c.rotate hu).length := by
    have hl : (c.rotate hu).edges.length = (c.rotate hu).length :=
      SimpleGraph.Walk.length_edges _
    rw [he1] at hl
    simp only [List.length_cons] at hl
    omega
  have hlast2 : p.edges.getLast? = some (s(u, w)) := by
    cases hpe2 : p.edges with
    | nil =>
      rw [hpe2] at hplen
      simp only [List.length_nil] at hplen
      omega
    | cons e0 es =>
      rw [he1, hpe2] at hlast
      rw [List.getLast?_cons_cons] at hlast
      exact hlast
  have hmem : s(u, w) ∈ p.edges := List.mem_of_mem_getLast? hlast2
  rw [he1, List.nodup_cons] at hnodup
  refine hnodup.1 ?_
  have hsy : s(u, u1) = s(u, w) := by rw [huw]
  rw [hsy]
  exact hmem

/-! ### Consequences at the final state of the generation loop -/

theorem final_edge_vis {rows cols : ℤ} {st2 : Maze.GenState}
    (hinv : GenInv rows cols st2) (hempty : st2.stack = [])
    {p q : Cell} (h : backEdge st2.back p q) : p ∈ st2.visited := by
  rcases (hinv.edgeProps p q h).2.2.2.2 with h5 | h5
  · exact h5
  · rw [hempty] at h5
    exact Option.noConfusion h5

theorem final_open_class {rows cols : ℤ} {st2 : Maze.GenState}
    (hinv : GenInv rows cols st2) :
    ∀ x, openCell st2.board x → x ∈ st2.visited ∨
      ∃ e : Cell × Cell, backEdge st2.back e.1 e.2 ∧ x = Maze.midCell e.1 e.2 := by
  intro x hx
  rcases hx with ⟨v, hv, hvne⟩
  rcases hinv.boardVals x v hv with h | h
  · exact absurd h hvne
  · rw [h] at hv
    rcases (hinv.spaceIff x).mp hv with h1 | ⟨a, b, hab, hmid⟩
    · exact Or.inl h1
    · exact Or.inr ⟨(a, b), hab, hmid⟩

theorem final_open_vis {rows cols : ℤ} {st2 : Maze.GenState}
    (hinv : GenInv rows cols st2) : ∀ x ∈ st2.visited, openCell st2.board x :=
  fun x hx => ⟨Maze.SPACE, (hinv.spaceIff x).mpr (Or.inl hx), by decide⟩

theorem final_open_mid {rows cols : ℤ} {st2 : Maze.GenState}
    (hinv : GenInv rows cols st2) :
    ∀ a b, backEdge st2.back a b → openCell st2.board (Maze.midCell a b) :=
  fun a b hab => ⟨Maze.SPACE, (hinv.spaceIff _).mpr (Or.inr ⟨a, b, hab, rfl⟩), by decide⟩

theorem final_reach_visited {rows cols : ℤ} {st2 : Maze.GenState}
    (hinv : GenInv rows cols st2) :
    ∀ p ∈ st2.visited, (mazeGraph st2.board).Reachable Maze.START_CELL p := by
  obtain ⟨d, hd⟩ := hinv.grade
  have H : ∀ (n : ℕ) (p : Cell), p ∈ st2.visited → d p = n →
      (mazeGraph st2.board).Reachable Maze.START_CELL p := by
    intro n
    induction n using Nat.strong_induction_on with
    | _ n ih =>
      intro p hp hn
      by_cases hps : p = Maze.START_CELL
      · rw [hps]
      · obtain ⟨q, hq⟩ := hinv.backSome p hp hps
        obtain ⟨hdist, hqV, -, -, -⟩ := hinv.edgeProps p q hq
        have hdq : d q < n := by
          have := hd p q hq
          omega
        have hreachq := ih (d q) hdq q hqV rfl
        have hadj1 : (mazeGraph st2.board).Adj q (Maze.midCell p q) := by
          refine ⟨?_, final_open_vis hinv q hqV, final_open_mid hinv p q hq⟩
          rw [manh_comm]
          exact manh_mid_right hdist
        have hadj2 : (mazeGraph st2.board).Adj (Maze.midCell p q) p := by
          refine ⟨?_, final_open_mid hinv p q hq, final_open_vis hinv p hp⟩
          rw [manh_comm]
          exact manh_mid_left hdist
        exact hreachq.trans (hadj1.reachable.trans hadj2.reachable)
  exact fun p hp => H (d p) p hp rfl

theorem final_reach_open {rows cols : ℤ} {st2 : Maze.GenState}
    (hinv : GenInv rows cols st2) :
    ∀ p, openCell st2.board p → (mazeGraph st2.board).Reachable Maze.START_CELL p := by
  intro p hp
  rcases final_open_class hinv p hp with hv | ⟨e, he, hmid⟩
  · exact final_reach_visited hinv p hv
  · obtain ⟨hdist, hbV, -, -, -⟩ := hinv.edgeProps e.1 e.2 he
    have hreach := final_reach_visited hinv e.2 hbV
    have hadj : (mazeGraph st2.board).Adj e.2 p := by
      refine ⟨?_, final_open_vis hinv e.2 hbV, hp⟩
      rw [hmid, manh_comm]
      exact manh_mid_right hdist
    exact hreach.trans hadj.reachable

theorem final_acyclic {rows cols : ℤ} {st2 : Maze.GenState}
    (hinv : GenInv rows cols st2) :
    (mazeGraph st2.board).IsAcyclic := by
  classical
  obtain ⟨d, hd⟩ := hinv.grade
  have huniq : ∀ a b b', backEdge st2.back a b → backEdge st2.back a b' → b = b' := by
    intro a b b' h1 h2
    unfold backEdge at h1 h2
    rw [h1] at h2
    simp only [Option.some.injEq] at h2
    exact h2
  have no2 : ∀ a b, backEdge st2.back a b → backEdge st2.back b a → False := by
    intro a b h1 h2
    have e1 := hd a b h1
    have e2 := hd b a h2
    omega
  have hroomP : ∀ x ∈ st2.visited, 2 ∣ x.1 ∧ 2 ∣ x.2 := fun x hx => (hinv.visitedRoom x hx).2
  have hmidP : ∀ a b, backEdge st2.back a b → isCorr rows cols (Maze.midCell a b) := by
    intro a b hab
    obtain ⟨hdist, hbV, haroom, -, -⟩ := hinv.edgeProps a b hab
    exact mid_isCorr haroom (hinv.visitedRoom b hbV) hdist
  have hdisj : ∀ x ∈ st2.visited, ∀ e : Cell × Cell, backEdge st2.back e.1 e.2 →
      x ≠ Maze.midCell e.1 e.2 := by
    intro x hx e he hxe
    exact corr_ne_room (hmidP e.1 e.2 he) (hroomP x hx) hxe.symm
  -- the canonical edge of a midpoint cell
  have hcanon : ∀ (a b x : Cell) (hab : backEdge st2.back a b)
      (hxab : x = Maze.midCell a b)
      (hm : ∃ e : Cell × Cell, backEdge st2.back e.1 e.2 ∧ x = Maze.midCell e.1 e.2),
      hm.choose.1 = a ∧ hm.choose.2 = b := by
    intro a b x hab hxab hm
    obtain ⟨h1, h2⟩ := hm.choose_spec
    have hmm : Maze.midCell hm.choose.1 hm.choose.2 = Maze.midCell a b := by
      rw [← h2, hxab]
    obtain ⟨hd1, hb1V, ha1room, -, -⟩ := hinv.edgeProps hm.choose.1 hm.choose.2 h1
    obtain ⟨hd2, hb2V, ha2room, -, -⟩ := hinv.edgeProps a b hab
    rcases mid_inj ha1room.2 (hinv.visitedRoom _ hb1V).2 ha2room.2 hd1 hd2 hmm with
      ⟨e1, e2⟩ | ⟨e1, e2⟩
    · exact ⟨e1, e2⟩
    · exfalso
      rw [e1, e2] at h1
      exact no2 a b hab h1
  set f : Cell → ℕ := fun x =>
    if x ∈ st2.visited then 2 * d x
    else if hm : ∃ e : Cell × Cell, backEdge st2.back e.1 e.2 ∧ x = Maze.midCell e.1 e.2
      then 2 * d hm.choose.2 + 1 else 0 with hfdef
  set par : Cell → Cell := fun x =>
    if x ∈ st2.visited then
      (if hq : ∃ q, backEdge st2.back x q then Maze.midCell x hq.choose else x)
    else if hm : ∃ e : Cell × Cell, backEdge st2.back e.1 e.2 ∧ x = Maze.midCell e.1 e.2
      then hm.choose.2 else x with hpardef
  have hfvis : ∀ x ∈ st2.visited, f x = 2 * d x := by
    intro x hx
    rw [hfdef]
    simp only []
    rw [if_pos hx]
  have hfmid : ∀ (x : Cell)
      (hm : ∃ e : Cell × Cell, backEdge st2.back e.1 e.2 ∧ x = Maze.midCell e.1 e.2),
      x ∉ st2.visited → f x = 2 * d hm.choose.2 + 1 := by
    intro x hm hx
    rw [hfdef]
    simp only []
    rw [if_neg hx, dif_pos hm]
  have hparmid : ∀ (x : Cell)
      (hm : ∃ e : Cell × Cell, backEdge st2.back e.1 e.2 ∧ x = Maze.midCell e.1 e.2),
      x ∉ st2.visited → par x = hm.choose.2 := by
    intro x hm hx
    rw [hpardef]
    simp only []
    rw [if_neg hx, dif_pos hm]
  have hparvis : ∀ (x : Cell) (hx : x ∈ st2.visited) (hq : ∃ q, backEdge st2.back x q),
      par x = Maze.midCell x hq.choose := by
    intro x hx hq
    rw [hpardef]
    simp only []
    rw [if_pos hx, dif_pos hq]
  -- the key case: a room cell adjacent to a midpoint cell
  have key : ∀ x y, (mazeGraph st2.board).Adj x y → x ∈ st2.visited →
      (∃ e : Cell × Cell, backEdge st2.back e.1 e.2 ∧ y = Maze.midCell e.1 e.2) →
      (f x = f y + 1 ∧ par x = y) ∨ (f y = f x + 1 ∧ par y = x) := by
    intro x y hxy hxV hmy
    obtain ⟨hman, hox, hoy⟩ := hxy
    obtain ⟨ey, hey, hym⟩ := hmy
    obtain ⟨hdist, heyV, heyroom, -, -⟩ := hinv.edgeProps ey.1 ey.2 hey
    have hxpq : x = ey.1 ∨ x = ey.2 := by
      refine adj_mid_eq heyroom.2 hdist (hroomP x hxV) ?_
      rw [← hym]
      exact hman
    have hynV : y ∉ st2.visited := fun hyV => hdisj y hyV ey hey hym
    have hmy' : ∃ e : Cell × Cell, backEdge st2.back e.1 e.2 ∧ y = Maze.midCell e.1 e.2 :=
      ⟨ey, hey, hym⟩
    obtain ⟨hch1, hch2⟩ := hcanon ey.1 ey.2 y hey hym hmy'
    have hfy : f y = 2 * d ey.2 + 1 := by
      rw [hfmid y hmy' hynV, hch2]
    have hpary : par y = ey.2 := by
      rw [hparmid y hmy' hynV, hch2]
    rcases hxpq with hx1 | hx2
    · left
      constructor
      · rw [hfvis x hxV, hfy, hx1, hd ey.1 ey.2 hey]
        omega
      · have hq : ∃ qq, backEdge st2.back x qq := ⟨ey.2, by rw [hx1]; exact hey⟩
        have hqc : hq.choose = ey.2 := huniq x _ _ hq.choose_spec (by rw [hx1]; exact hey)
        rw [hparvis x hxV hq, hqc, hx1, ← hym]
    · right
      constructor
      · rw [hfvis x hxV, hfy, hx2]
      · rw [hpary, hx2]
  refine acyclic_of_grading f par ?_
  intro x y hxy
  have hox := hxy.2.1
  have hoy := hxy.2.2
  rcases final_open_class hinv x hox with hxV | ⟨ex, hex, hxm⟩
  · rcases final_open_class hinv y hoy with hyV | hmy
    · exfalso
      obtain ⟨hx1, hx2⟩ := hroomP x hxV
      obtain ⟨hy1, hy2⟩ := hroomP y hyV
      have hman := hxy.1
      unfold manh at hman
      omega
    · exact key x y hxy hxV hmy
  · rcases final_open_class hinv y hoy with hyV | ⟨ey, hey, hym⟩
    · exact (key y x hxy.symm hyV ⟨ex, hex, hxm⟩).symm
    · exfalso
      have hcx := hmidP ex.1 ex.2 hex
      have hcy := hmidP ey.1 ey.2 hey
      rw [← hxm] at hcx
      rw [← hym] at hcy
      have hman := hxy.1
      unfold manh at hman
      rcases hcx.2 with ⟨a1, a2⟩ | ⟨a1, a2⟩ <;> rcases hcy.2 with ⟨b1, b2⟩ | ⟨b1, b2⟩ <;> omega

theorem final_backIter {rows cols : ℤ} {st2 : Maze.GenState}
    (hinv : GenInv rows cols st2) :
    ∀ p q, backEdge st2.back p q → ∃ n, backIter st2.back n p = some Maze.START_CELL := by
  obtain ⟨d, hd⟩ := hinv.grade
  have hstep : ∀ (p q : Cell), backEdge st2.back p q → ∀ m,
      backIter st2.back (m + 1) p = backIter st2.back m q := by
    intro p q hpq m
    show (match get2 st2.back p.1 p.2 with
          | some (some q') => backIter st2.back m q'
          | _ => none) = backIter st2.back m q
    rw [show get2 st2.back p.1 p.2 = some (some q) from hpq]
  have H : ∀ (n : ℕ) (p q : Cell), backEdge st2.back p q → d p = n →
      ∃ m, backIter st2.back m p = some Maze.START_CELL := by
    intro n
    induction n using Nat.strong_induction_on with
    | _ n ih =>
      intro p q hpq hn
      by_cases hqs : q = Maze.START_CELL
      · refine ⟨1, ?_⟩
        rw [hstep p q hpq 0, hqs]
        rfl
      · have hqV : q ∈ st2.visited := (hinv.edgeProps p q hpq).2.1
        obtain ⟨r, hqr⟩ := hinv.backSome q hqV hqs
        have hlt : d q < n := by
          have := hd p q hpq
          omega
        obtain ⟨m, hm⟩ := ih (d q) hlt q r hqr rfl
        refine ⟨m + 1, ?_⟩
        rw [hstep p q hpq m]
        exact hm
  intro p q hpq
  exact H (d p) p q hpq rfl

/-! ### Claim C1: generated mazes are perfect -/

/-- C1: for `rows, cols ≥ 1`, the board returned by `generate_board` is a
perfect maze: every non-`WALL` cell is reachable from the start cell
`(0,0)` through grid-adjacent non-`WALL` cells, the non-`WALL` adjacency
graph is acyclic, hence there is exactly one simple path between the
start cell and any other open cell, and iterating the backpointer table
from any cell with a backpointer reaches the start cell (the table is a
tree rooted at the start). -/
theorem C1_perfect_maze :
    ∀ (rows cols : ℤ) (rng : ℕ → ℕ) (b : Board) (bk : BackTable) (e : Cell),
    1 ≤ rows → 1 ≤ cols →
    Maze.generate_board rows cols rng = some (b, bk, e) →
    (∀ p, openCell b p → (mazeGraph b).Reachable Maze.START_CELL p) ∧
    (mazeGraph b).IsAcyclic ∧
    (∀ p, openCell b p → p ≠ Maze.START_CELL →
      (Nonempty ((mazeGraph b).Path Maze.START_CELL p) ∧
        ∀ pa pb : (mazeGraph b).Path Maze.START_CELL p, pa = pb)) ∧
    (∀ p q, backEdge bk p q → ∃ n, backIter bk n p = some Maze.START_CELL) := by
  intro rows cols rng b bk e hr hc hgen
  obtain ⟨st2, hgen2, hinv, hempty⟩ := generate_board_spec rng hr hc
  rw [hgen] at hgen2
  injection hgen2 with hgen2
  rw [Prod.ext_iff] at hgen2
  obtain ⟨hb, hrest⟩ := hgen2
  rw [Prod.ext_iff] at hrest
  obtain ⟨hbk, he⟩ := hrest
  simp only at hb hbk he
  subst hb
  subst hbk
  refine ⟨final_reach_open hinv, final_acyclic hinv, ?_, final_backIter hinv⟩
  intro p hp hps
  have hreach := final_reach_open hinv p hp
  refine ⟨hreach.elim fun w => ⟨w.toPath⟩, ?_⟩
  exact fun pa pb => SimpleGraph.isAcyclic_iff_path_unique.mp (final_acyclic hinv) pa pb

/-- Witness for C1 on the concrete 3×3 maze generated with the zero
random stream. -/
theorem C1_perfect_maze_witness :
    (1 : ℤ) ≤ 3 ∧
    Maze.generate_board 3 3 (fun _ => 0) =
      some ([[1, 0, 1], [1, 0, 1], [1, 1, 1]],
        [[none, none, some (2, 2)], [none, none, none], [some (0, 0), none, some (2, 0)]],
        (0, 2)) ∧
    ((∀ p, openCell [[1, 0, 1], [1, 0, 1], [1, 1, 1]] p →
        (mazeGraph [[1, 0, 1], [1, 0, 1], [1, 1, 1]]).Reachable Maze.START_CELL p) ∧
      (mazeGraph [[1, 0, 1], [1, 0, 1], [1, 1, 1]]).IsAcyclic ∧
      (∀ p, openCell [[1, 0, 1], [1, 0, 1], [1, 1, 1]] p → p ≠ Maze.START_CELL →
        (Nonempty ((mazeGraph [[1, 0, 1], [1, 0, 1], [1, 1, 1]]).Path Maze.START_CELL p) ∧
          ∀ pa pb : (mazeGraph [[1, 0, 1], [1, 0, 1], [1, 1, 1]]).Path Maze.START_CELL p,
            pa = pb)) ∧
      (∀ p q, backEdge [[none, none, some (2, 2)], [none, none, none],
          [some (0, 0), none, some (2, 0)]] p q →
        ∃ n, backIter [[none, none, some (2, 2)], [none, none, none],
          [some (0, 0), none, some (2, 0)]] n p = some Maze.START_CELL)) := by
  have hg : Maze.generate_board 3 3 (fun _ => 0) =
      some ([[1, 0, 1], [1, 0, 1], [1, 1, 1]],
        [[none, none, some (2, 2)], [none, none, none], [some (0, 0), none, some (2, 0)]],
        (0, 2)) := by decide
  exact ⟨by norm_num, hg,
    C1_perfect_maze 3 3 (fun _ => 0) _ _ _ (by norm_num) (by norm_num) hg⟩

/-! ### Claim C9: parity of carved cells and of START/STOP -/

/-- C9: every in-bounds cell with both coordinates odd stays `WALL`, both
in the board returned by `generate_board` and in the final maze board;
carving opens only room cells (both coordinates even) and corridor cells
halfway between two rooms two apart; `START` is placed only at the start
room cell and `STOP` only at the (room) end cell. -/
theorem C9_parity :
    ∀ (rows cols : ℤ) (rng : ℕ → ℕ) (b : Board) (bk : BackTable) (e : Cell),
    1 ≤ rows → 1 ≤ cols →
    Maze.generate_board rows cols rng = some (b, bk, e) →
    (∀ p : Cell, inB rows cols p → ¬ 2 ∣ p.1 → ¬ 2 ∣ p.2 →
      get2 b p.1 p.2 = some Maze.WALL) ∧
    (∀ p : Cell, get2 b p.1 p.2 = some Maze.SPACE →
      (2 ∣ p.1 ∧ 2 ∣ p.2) ∨
      ∃ a c : Cell, backEdge bk a c ∧ dist2 a c ∧ (2 ∣ a.1 ∧ 2 ∣ a.2) ∧
        (2 ∣ c.1 ∧ 2 ∣ c.2) ∧ p = Maze.midCell a c) ∧
    (2 ∣ e.1 ∧ 2 ∣ e.2) ∧
    (∀ b2 p2, Maze.Maze_init rows cols rng = some (b2, p2) →
      (∀ p : Cell, inB rows cols p → ¬ 2 ∣ p.1 → ¬ 2 ∣ p.2 →
        get2 b2 p.1 p.2 = some Maze.WALL) ∧
      (∀ p : Cell, get2 b2 p.1 p.2 = some Maze.START → p = Maze.START_CELL) ∧
      (∀ p : Cell, get2 b2 p.1 p.2 = some Maze.STOP → p = e) ∧
      get2 b2 e.1 e.2 = some Maze.STOP) := by
  intro rows cols rng b bk e hr hc hgen
  obtain ⟨st2, hgen2, hinv, hempty⟩ := generate_board_spec rng hr hc
  rw [hgen] at hgen2
  injection hgen2 with hgen2
  rw [Prod.ext_iff] at hgen2
  obtain ⟨hb, hrest⟩ := hgen2
  rw [Prod.ext_iff] at hrest
  obtain ⟨hbk, he⟩ := hrest
  simp only at hb hbk he
  subst hb
  subst hbk
  have hwall : ∀ p : Cell, inB rows cols p → ¬ 2 ∣ p.1 → ¬ 2 ∣ p.2 →
      get2 st2.board p.1 p.2 = some Maze.WALL := by
    intro p hp ho1 ho2
    obtain ⟨v, hv⟩ := get2_isSome_of_rect hinv.boardRect hp
    rcases hinv.boardVals p v hv with hw | hs
    · rw [hw] at hv
      exact hv
    · exfalso
      rw [hs] at hv
      rcases (hinv.spaceIff p).mp hv with hvis | ⟨a, c, hac, hmid⟩
      · exact ho1 (hinv.visitedRoom p hvis).2.1
      · obtain ⟨hdist, hcV, haroom, -, -⟩ := hinv.edgeProps a c hac
        have hco := mid_isCorr haroom (hinv.visitedRoom c hcV) hdist
        rw [← hmid] at hco
        rcases hco.2 with ⟨h1, -⟩ | ⟨-, h2⟩
        · exact ho1 h1
        · exact ho2 h2
  have hspacechar : ∀ p : Cell, get2 st2.board p.1 p.2 = some Maze.SPACE →
      (2 ∣ p.1 ∧ 2 ∣ p.2) ∨
      ∃ a c : Cell, backEdge st2.back a c ∧ dist2 a c ∧ (2 ∣ a.1 ∧ 2 ∣ a.2) ∧
        (2 ∣ c.1 ∧ 2 ∣ c.2) ∧ p = Maze.midCell a c := by
    intro p hv
    rcases (hinv.spaceIff p).mp hv with hvis | ⟨a, c, hac, hmid⟩
    · exact Or.inl (hinv.visitedRoom p hvis).2
    · obtain ⟨hdist, hcV, haroom, -, -⟩ := hinv.edgeProps a c hac
      exact Or.inr ⟨a, c, hac, hdist, haroom.2, (hinv.visitedRoom c hcV).2, hmid⟩
  have heV : st2.endCell ∈ st2.visited := (hinv.nonTriv hempty).1
  have heroom : 2 ∣ st2.endCell.1 ∧ 2 ∣ st2.endCell.2 := (hinv.visitedRoom _ heV).2
  refine ⟨hwall, hspacechar, he ▸ heroom, ?_⟩
  intro b2 p2 hm
  unfold Maze.Maze_init at hm
  rw [hgen] at hm
  simp only [] at hm
  cases hset1 : set2 st2.board Maze.START_CELL.1 Maze.START_CELL.2 Maze.START with
  | none =>
    rw [hset1] at hm
    exact absurd hm (by simp)
  | some b1 =>
    rw [hset1] at hm
    simp only [] at hm
    cases hset2 : set2 b1 e.1 e.2 Maze.STOP with
    | none =>
      rw [hset2] at hm
      exact absurd hm (by simp)
    | some b2' =>
      rw [hset2] at hm
      simp only [] at hm
      cases hpath : Maze.get_path (Maze.pathFuel rows cols) st2.back e with
      | none =>
        rw [hpath] at hm
        exact absurd hm (by simp)
      | some pth =>
        rw [hpath] at hm
        simp only [Option.some.injEq, Prod.mk.injEq] at hm
        obtain ⟨hb2, -⟩ := hm
        subst hb2
        have hval2 : ∀ (p : Cell) (v : ℕ), get2 b2' p.1 p.2 = some v →
            (p = e ∧ v = Maze.STOP) ∨ (p = Maze.START_CELL ∧ v = Maze.START) ∨
            get2 st2.board p.1 p.2 = some v := by
          intro p v hv
          rcases get2_set2_cases hset2 p.1 p.2 with heq | ⟨h1, h2, heq⟩
          · rw [heq] at hv
            rcases get2_set2_cases hset1 p.1 p.2 with heq2 | ⟨h3, h4, heq2⟩
            · right
              right
              rw [← heq2]
              exact hv
            · right
              left
              rw [heq2] at hv
              injection hv with hv
              exact ⟨Prod.ext h3 h4, hv.symm⟩
          · left
            rw [heq] at hv
            injection hv with hv
            exact ⟨Prod.ext h1 h2, hv.symm⟩
        refine ⟨?_, ?_, ?_, ?_⟩
        · intro p hp ho1 ho2
          have hne1 : p ≠ e := by
            intro hpe
            rw [hpe] at ho1
            exact ho1 (he ▸ heroom).1
          have hne2 : p ≠ Maze.START_CELL := by
            intro hps
            rw [hps] at ho1
            exact ho1 ⟨0, rfl⟩
          rcases get2_set2_cases hset2 p.1 p.2 with heq | ⟨h1, h2, -⟩
          · rw [heq]
            rcases get2_set2_cases hset1 p.1 p.2 with heq2 | ⟨h3, h4, -⟩
            · rw [heq2]
              exact hwall p hp ho1 ho2
            · exact absurd (Prod.ext h3 h4) hne2
          · exact absurd (Prod.ext h1 h2) hne1
        · intro p hv
          rcases hval2 p _ hv with ⟨-, hvv⟩ | ⟨hp, -⟩ | hold
          · exact absurd hvv (by decide)
          · exact hp
          · exfalso
            rcases hinv.boardVals p _ hold with hw | hs
            · exact absurd hw (by decide)
            · exact absurd hs (by decide)
        · intro p hv
          rcases hval2 p _ hv with ⟨hp, -⟩ | ⟨-, hvv⟩ | hold
          · exact hp
          · exact absurd hvv (by decide)
          · exfalso
            rcases hinv.boardVals p _ hold with hw | hs
            · exact absurd hw (by decide)
            · exact absurd hs (by decide)
        · exact get2_set2_self hset2

/-- Witness for C9 on the concrete 3×3 maze. -/
theorem C9_parity_witness :
    (1 : ℤ) ≤ 3 ∧
    Maze.generate_board 3 3 (fun _ => 0) =
      some ([[1, 0, 1], [1, 0, 1], [1, 1, 1]],
        [[none, none, some (2, 2)], [none, none, none], [some (0, 0), none, some (2, 0)]],
        (0, 2)) ∧
    (∀ p : Cell, inB 3 3 p → ¬ 2 ∣ p.1 → ¬ 2 ∣ p.2 →
      get2 [[1, 0, 1], [1, 0, 1], [1, 1, 1]] p.1 p.2 = some Maze.WALL) := by
  have hg : Maze.generate_board 3 3 (fun _ => 0) =
      some ([[1, 0, 1], [1, 0, 1], [1, 1, 1]],
        [[none, none, some (2, 2)], [none, none, none], [some (0, 0), none, some (2, 0)]],
        (0, 2)) := by decide
  exact ⟨by norm_num, hg,
    (C9_parity 3 3 (fun _ => 0) _ _ _ (by norm_num) (by norm_num) hg).1⟩

/-! ### Claim C10: tiny grids collapse start and stop -/

/-- C10: when the start cell has no in-bounds room neighbour
(`rows ≤ 2` and `cols ≤ 2`), the furthest cell returned by
`generate_board` is the start cell `(0,0)` itself; `Maze.__init__` then
overwrites the `START` marking with `STOP` at `(0,0)`, so the final board
has `STOP` at `(0,0)`, contains no `START` cell at all, and the solution
path is empty. -/
theorem C10_tiny_grid :
    ∀ (rows cols : ℤ) (rng : ℕ → ℕ),
    1 ≤ rows → rows ≤ 2 → 1 ≤ cols → cols ≤ 2 →
    ∃ b bk, Maze.generate_board rows cols rng = some (b, bk, Maze.START_CELL) ∧
      ∃ b2, Maze.Maze_init rows cols rng = some (b2, []) ∧
        get2 b2 0 0 = some Maze.STOP ∧
        ∀ (p : Cell) (v : ℕ), get2 b2 p.1 p.2 = some v → v ≠ Maze.START := by
  intro rows cols rng h1 h2 h3 h4
  have hlast : ∀ (b2 : Board), b2 = [[3]] ∨ b2 = [[3, 0]] ∨ b2 = [[3], [0]] ∨
      b2 = [[3, 0], [0, 0]] →
      ∀ (p : Cell) (v : ℕ), get2 b2 p.1 p.2 = some v → v ≠ Maze.START := by
    intro b2 hb2 p v hv
    obtain ⟨row, hrow, hvr⟩ := get2_mem hv
    rcases hb2 with hb2 | hb2 | hb2 | hb2 <;>
    · subst hb2
      intro hvs
      rw [hvs] at hvr
      simp only [List.mem_cons, List.not_mem_nil] at hrow hvr
      rcases hrow with hrow | hrow <;> simp_all [Maze.START]
  interval_cases rows <;> interval_cases cols
  · exact ⟨[[1]], [[none]], rfl, [[3]], rfl, rfl, hlast _ (Or.inl rfl)⟩
  · exact ⟨[[1, 0]], [[none, none]], rfl, [[3, 0]], rfl, rfl,
      hlast _ (Or.inr (Or.inl rfl))⟩
  · exact ⟨[[1], [0]], [[none], [none]], rfl, [[3], [0]], rfl, rfl,
      hlast _ (Or.inr (Or.inr (Or.inl rfl)))⟩
  · exact ⟨[[1, 0], [0, 0]], [[none, none], [none, none]], rfl, [[3, 0], [0, 0]], rfl, rfl,
      hlast _ (Or.inr (Or.inr (Or.inr rfl)))⟩

/-- Witness for C10 at `rows = cols = 1` with the zero random stream. -/
theorem C10_tiny_grid_witness :
    ((1 : ℤ) ≤ 1 ∧ (1 : ℤ) ≤ 2) ∧
    (∃ b bk, Maze.generate_board 1 1 (fun _ => 0) = some (b, bk, Maze.START_CELL) ∧
      ∃ b2, Maze.Maze_init 1 1 (fun _ => 0) = some (b2, []) ∧
        get2 b2 0 0 = some Maze.STOP ∧
        ∀ (p : Cell) (v : ℕ), get2 b2 p.1 p.2 = some v → v ≠ Maze.START) :=
  ⟨⟨by norm_num, by norm_num⟩,
    C10_tiny_grid 1 1 (fun _ => 0) (by norm_num) (by norm_num) (by norm_num) (by norm_num)⟩

/-! ### The shape of the path returned by `get_path` -/

theorem get_path_loop_append (bk : BackTable) (endC : Cell) :
    ∀ (fuel : ℕ) (cell : Cell) (acc : List Maze.PathEntry),
      Maze.get_path_loop bk endC fuel cell acc
        = (Maze.get_path_loop bk endC fuel cell []).map (fun t => acc ++ t) := by
  intro fuel
  induction fuel with
  | zero =>
    intro cell acc
    rfl
  | succ fuel ih =>
    intro cell acc
    have e1 : ∀ acc2 : List Maze.PathEntry, Maze.get_path_loop bk endC (fuel + 1) cell acc2 =
        (match get2 bk cell.1 cell.2 with
         | none => none
         | some none => some (if cell = Maze.START_CELL ∨ cell = endC then acc2
             else acc2 ++ [(cell, some Maze.NO_DIR)])
         | some (some c2) =>
           Maze.get_path_loop bk endC fuel c2
             ((if cell = Maze.START_CELL ∨ cell = endC then acc2
               else acc2 ++ [(cell, some Maze.NO_DIR)])
               ++ [(Maze.midCell cell c2, Maze.get_dir c2 cell)])) := fun acc2 => rfl
    rw [e1 acc, e1 []]
    cases hget : get2 bk cell.1 cell.2 with
    | none => rfl
    | some o =>
      cases o with
      | none =>
        simp only [Option.map_some']
        by_cases hcond : cell = Maze.START_CELL ∨ cell = endC
        · rw [if_pos hcond, if_pos hcond, List.append_nil]
        · rw [if_neg hcond, if_neg hcond, List.nil_append]
      | some c2 =>
        simp only []
        rw [ih c2 ((if cell = Maze.START_CELL ∨ cell = endC then acc
              else acc ++ [(cell, some Maze.NO_DIR)])
              ++ [(Maze.midCell cell c2, Maze.get_dir c2 cell)]),
          ih c2 ((if cell = Maze.START_CELL ∨ cell = endC then ([] : List Maze.PathEntry)
              else [] ++ [(cell, some Maze.NO_DIR)])
              ++ [(Maze.midCell cell c2, Maze.get_dir c2 cell)])]
        cases hrec : Maze.get_path_loop bk endC fuel c2 [] with
        | none => rfl
        | some t =>
          simp only [Option.map_some']
          by_cases hcond : cell = Maze.START_CELL ∨ cell = endC
          · rw [if_pos hcond, if_pos hcond]
            simp [List.append_assoc]
          · rw [if_neg hcond, if_neg hcond]
            simp [List.append_assoc]

/-- The shape of the list produced by the `get_path` loop, run from a
visited cell whose grade is at most the end cell's: consecutive entries
are grid-adjacent, the list is empty exactly when started at the start
cell, its head is the corridor next to the starting cell, its last entry
is adjacent to the start cell, every entry is an intermediate room (with
direction `NO_DIR`) or a corridor of a backpointer edge (with the
direction between its two rooms), and every intermediate room of the
backpointer chain occurs in it. -/
theorem get_path_loop_spec (rows cols : ℤ) (bk : BackTable) (V : Finset Cell)
    (d : Cell → ℕ) (endC : Cell) (hr : 1 ≤ rows) (hc : 1 ≤ cols)
    (hroom : ∀ p ∈ V, isRoom rows cols p)
    (hedgeF : ∀ p q, backEdge bk p q →
      dist2 p q ∧ q ∈ V ∧ p ∈ V ∧ p ≠ Maze.START_CELL)
    (hsome : ∀ p ∈ V, p ≠ Maze.START_CELL → ∃ q, backEdge bk p q)
    (hd : ∀ p q, backEdge bk p q → d p = d q + 1)
    (hendV : endC ∈ V) :
    ∀ (fuel : ℕ) (cell : Cell), cell ∈ V → (cell = endC ∨ d cell < d endC) →
    ∀ t, Maze.get_path_loop bk endC fuel cell [] = some t →
      t.Chain' (fun x y => manh x.1 y.1 = 1) ∧
      (cell = Maze.START_CELL → t = []) ∧
      (cell ≠ Maze.START_CELL → cell ≠ endC →
        ∃ q t3, backEdge bk cell q ∧
          t = (cell, some Maze.NO_DIR) ::
            (Maze.midCell cell q, Maze.get_dir q cell) :: t3) ∧
      (cell = endC → cell ≠ Maze.START_CELL →
        ∃ q t3, backEdge bk cell q ∧
          t = (Maze.midCell cell q, Maze.get_dir q cell) :: t3) ∧
      (∀ last ∈ t.getLast?, manh last.1 Maze.START_CELL = 1) ∧
      (∀ en ∈ t, en.1 ≠ Maze.START_CELL ∧ en.1 ≠ endC ∧
        ((2 ∣ en.1.1 ∧ 2 ∣ en.1.2) → en.2 = some Maze.NO_DIR ∧ en.1 ∈ V) ∧
        (¬ (2 ∣ en.1.1 ∧ 2 ∣ en.1.2) →
          ∃ a b, backEdge bk a b ∧ en.1 = Maze.midCell a b ∧
            en.2 = Maze.get_dir b a ∧ en.2 ≠ some Maze.NO_DIR)) ∧
      (∀ (n : ℕ) (c' : Cell), backIter bk n cell = some c' →
        c' ≠ Maze.START_CELL → c' ≠ endC → (c', some Maze.NO_DIR) ∈ t) ∧
      (∀ (n : ℕ) (c' q : Cell), backIter bk n cell = some c' → backEdge bk c' q →
        (Maze.midCell c' q, Maze.get_dir q c') ∈ t) := by
  intro fuel
  induction fuel with
  | zero =>
    intro cell _ _ t ht
    exact Option.noConfusion ht
  | succ fuel ih =>
    intro cell hcV hside t ht
    have e1 : Maze.get_path_loop bk endC (fuel + 1) cell [] =
        (match get2 bk cell.1 cell.2 with
         | none => none
         | some none => some (if cell = Maze.START_CELL ∨ cell = endC then []
             else [(cell, some Maze.NO_DIR)])
         | some (some c2) =>
           Maze.get_path_loop bk endC fuel c2
             ((if cell = Maze.START_CELL ∨ cell = endC then []
               else [(cell, some Maze.NO_DIR)])
               ++ [(Maze.midCell cell c2, Maze.get_dir c2 cell)])) := rfl
    rw [e1] at ht
    cases hget : get2 bk cell.1 cell.2 with
    | none =>
      rw [hget] at ht
      exact Option.noConfusion ht
    | some o =>
      cases o with
      | none =>
        rw [hget] at ht
        simp only [] at ht
        have hcs : cell = Maze.START_CELL := by
          by_contra hcs
          obtain ⟨q, hq⟩ := hsome cell hcV hcs
          rw [hq] at hget
          exact Option.noConfusion (Option.some.inj hget)
        rw [if_pos (Or.inl hcs)] at ht
        have ht0 : t = [] := (Option.some.inj ht).symm
        subst ht0
        refine ⟨List.chain'_nil, fun _ => rfl, fun hne _ => absurd hcs hne,
          fun _ hne => absurd hcs hne, ?_, ?_, ?_, ?_⟩
        · intro last hlast
          exact absurd hlast (by simp)
        · intro en hen
          exact absurd hen (List.not_mem_nil en)
        · intro n c' hbi hne1 hne2
          cases n with
          | zero =>
            have hcc : c' = cell := (Option.some.inj hbi).symm
            exact absurd (hcc.trans hcs) hne1
          | succ m =>
            have e2 : backIter bk (m + 1) cell =
                (match get2 bk cell.1 cell.2 with
                 | some (some q) => backIter bk m q
                 | _ => none) := rfl
            rw [e2, hget] at hbi
            exact Option.noConfusion hbi
        · intro n c' q hbi hedge2
          cases n with
          | zero =>
            have hcc : c' = cell := (Option.some.inj hbi).symm
            exact absurd (hcc.trans hcs) (hedgeF c' q hedge2).2.2.2
          | succ m =>
            have e3 : backIter bk (m + 1) cell =
                (match get2 bk cell.1 cell.2 with
                 | some (some q2) => backIter bk m q2
                 | _ => none) := rfl
            rw [e3, hget] at hbi
            exact Option.noConfusion hbi
      | some c2 =>
        rw [hget] at ht
        simp only [] at ht
        have hedge : backEdge bk cell c2 := hget
        obtain ⟨hd2, hc2V, hcVmem, hcs⟩ := hedgeF cell c2 hedge
        rw [get_path_loop_append] at ht
        obtain ⟨t2, hrec, ht2⟩ := Option.map_eq_some'.mp ht
        subst ht2
        have hdc : d cell = d c2 + 1 := hd cell c2 hedge
        have hlt2 : d c2 < d endC := by
          rcases hside with hce | hlt
          · rw [← hce]
            omega
          · omega
        have hc2ne : c2 ≠ endC := by
          intro he
          rw [he] at hlt2
          exact lt_irrefl _ hlt2
        obtain ⟨ch1, ch2, ch3, ch4, ch5, ch6, ch7, ch8⟩ :=
          ih c2 hc2V (Or.inr hlt2) t2 hrec
        have hmid1 : manh cell (Maze.midCell cell c2) = 1 := manh_mid_left hd2
        have hmid2 : manh (Maze.midCell cell c2) c2 = 1 := manh_mid_right hd2
        have hcorr : isCorr rows cols (Maze.midCell cell c2) :=
          mid_isCorr (hroom cell hcVmem) (hroom c2 hc2V) hd2
        have hmidne1 : (Maze.midCell cell c2) ≠ Maze.START_CELL :=
          corr_ne_room hcorr (start_isRoom hr hc).2
        have hmidne2 : (Maze.midCell cell c2) ≠ endC :=
          corr_ne_room hcorr (hroom endC hendV).2
        have hmidpar : ¬ (2 ∣ (Maze.midCell cell c2).1 ∧ 2 ∣ (Maze.midCell cell c2).2) := by
          rcases hcorr.2 with ⟨h1, h2⟩ | ⟨h1, h2⟩ <;> tauto
        obtain ⟨dv, hdv, hdvne⟩ := get_dir_dist2 hd2
        have hdirne : Maze.get_dir c2 cell ≠ some Maze.NO_DIR := by
          rw [hdv]
          intro hcon
          exact hdvne (Option.some.inj hcon)
        have hchain2 : ((Maze.midCell cell c2, Maze.get_dir c2 cell) :: t2).Chain'
            (fun x y => manh x.1 y.1 = 1) := by
          rw [List.chain'_cons']
          refine ⟨?_, ch1⟩
          intro y hy
          by_cases hc2s : c2 = Maze.START_CELL
          · rw [ch2 hc2s] at hy
            exact absurd hy (by simp)
          · obtain ⟨q, t3, hq, ht3⟩ := ch3 hc2s hc2ne
            rw [ht3] at hy
            have hy2 : (c2, some Maze.NO_DIR) = y := by simpa using hy
            rw [← hy2]
            exact hmid2
        have hlastA : ∀ last ∈ ((Maze.midCell cell c2, Maze.get_dir c2 cell) :: t2).getLast?,
            manh last.1 Maze.START_CELL = 1 := by
          cases t2 with
          | nil =>
            intro last hlast
            have hl : (Maze.midCell cell c2, Maze.get_dir c2 cell) = last := by
              simpa using hlast
            have hc2s : c2 = Maze.START_CELL := by
              by_contra hc2s
              obtain ⟨q, t3, hq, ht3⟩ := ch3 hc2s hc2ne
              exact List.noConfusion ht3
            rw [← hl]
            show manh (Maze.midCell cell c2) Maze.START_CELL = 1
            rw [← hc2s]
            exact manh_mid_right hd2
          | cons u t2x =>
            intro last hlast
            rw [List.getLast?_cons_cons] at hlast
            exact ch5 last hlast
        have hmidmem : ∀ en, en = (Maze.midCell cell c2, Maze.get_dir c2 cell) →
            en.1 ≠ Maze.START_CELL ∧ en.1 ≠ endC ∧
            ((2 ∣ en.1.1 ∧ 2 ∣ en.1.2) → en.2 = some Maze.NO_DIR ∧ en.1 ∈ V) ∧
            (¬ (2 ∣ en.1.1 ∧ 2 ∣ en.1.2) →
              ∃ a b, backEdge bk a b ∧ en.1 = Maze.midCell a b ∧
                en.2 = Maze.get_dir b a ∧ en.2 ≠ some Maze.NO_DIR) := by
          intro en hen
          rw [hen]
          refine ⟨hmidne1, hmidne2, ?_, ?_⟩
          · intro hpar
            exact absurd hpar hmidpar
          · intro _
            exact ⟨cell, c2, hedge, rfl, rfl, hdirne⟩
        by_cases hce : cell = endC
        · rw [if_pos (Or.inr hce)]
          simp only [List.nil_append, List.singleton_append]
          refine ⟨hchain2, fun h => absurd h hcs, fun _ hne => absurd hce hne,
            fun _ _ => ⟨c2, t2, hedge, rfl⟩, hlastA, ?_, ?_, ?_⟩
          · intro en hen
            rcases List.mem_cons.mp hen with hen1 | hen2
            · exact hmidmem en hen1
            · exact ch6 en hen2
          · intro n c' hbi hne1 hne2
            cases n with
            | zero =>
              have hcc : c' = cell := (Option.some.inj hbi).symm
              exact absurd (hcc.trans hce) hne2
            | succ m =>
              have e2 : backIter bk (m + 1) cell =
                  (match get2 bk cell.1 cell.2 with
                   | some (some q) => backIter bk m q
                   | _ => none) := rfl
              rw [e2, hget] at hbi
              simp only [] at hbi
              exact List.mem_cons_of_mem _ (ch7 m c' hbi hne1 hne2)
          · intro n c' q hbi hedge2
            cases n with
            | zero =>
              have hcc : c' = cell := (Option.some.inj hbi).symm
              rw [hcc] at hedge2 ⊢
              have h2 : get2 bk cell.1 cell.2 = some (some q) := hedge2
              have h3 : some (some q) = some (some c2) := by
                rw [← h2]
                exact hget
              have hqc : q = c2 := Option.some.inj (Option.some.inj h3)
              rw [hqc]
              exact List.mem_cons_self _ _
            | succ m =>
              have e3 : backIter bk (m + 1) cell =
                  (match get2 bk cell.1 cell.2 with
                   | some (some q2) => backIter bk m q2
                   | _ => none) := rfl
              rw [e3, hget] at hbi
              simp only [] at hbi
              exact List.mem_cons_of_mem _ (ch8 m c' q hbi hedge2)
        · rw [if_neg (by
            rintro (h | h)
            · exact hcs h
            · exact hce h)]
          simp only [List.cons_append, List.nil_append]
          refine ⟨List.chain'_cons.mpr ⟨hmid1, hchain2⟩, fun h => absurd h hcs,
            fun _ _ => ⟨c2, t2, hedge, rfl⟩, fun h _ => absurd h hce, ?_, ?_, ?_, ?_⟩
          · intro last hlast
            rw [List.getLast?_cons_cons] at hlast
            exact hlastA last hlast
          · intro en hen
            rcases List.mem_cons.mp hen with hen1 | hen2
            · rw [hen1]
              refine ⟨hcs, hce, ?_, ?_⟩
              · intro _
                exact ⟨rfl, hcVmem⟩
              · intro hnpar
                have hcr := hroom cell hcVmem
                exact absurd ⟨hcr.2.1, hcr.2.2⟩ hnpar
            · rcases List.mem_cons.mp hen2 with hen3 | hen4
              · exact hmidmem en hen3
              · exact ch6 en hen4
          · intro n c' hbi hne1 hne2
            cases n with
            | zero =>
              have hcc : c' = cell := (Option.some.inj hbi).symm
              rw [hcc]
              exact List.mem_cons_self _ _
            | succ m =>
              have e2 : backIter bk (m + 1) cell =
                  (match get2 bk cell.1 cell.2 with
                   | some (some q) => backIter bk m q
                   | _ => none) := rfl
              rw [e2, hget] at hbi
              simp only [] at hbi
              exact List.mem_cons_of_mem _
                (List.mem_cons_of_mem _ (ch7 m c' hbi hne1 hne2))
          · intro n c' q hbi hedge2
            cases n with
            | zero =>
              have hcc : c' = cell := (Option.some.inj hbi).symm
              rw [hcc] at hedge2 ⊢
              have h2 : get2 bk cell.1 cell.2 = some (some q) := hedge2
              have h3 : some (some q) = some (some c2) := by
                rw [← h2]
                exact hget
              have hqc : q = c2 := Option.some.inj (Option.some.inj h3)
              rw [hqc]
              exact List.mem_cons_of_mem _ (List.mem_cons_self _ _)
            | succ m =>
              have e3 : backIter bk (m + 1) cell =
                  (match get2 bk cell.1 cell.2 with
                   | some (some q2) => backIter bk m q2
                   | _ => none) := rfl
              rw [e3, hget] at hbi
              simp only [] at hbi
              exact List.mem_cons_of_mem _
                (List.mem_cons_of_mem _ (ch8 m c' q hbi hedge2))

/-! ### Claim C2: validity of the reconstructed path -/

/-- C2 (amended): the path returned by `get_path` moves only between
grid-adjacent cells (consecutive positions differ by Manhattan distance
exactly 1), but its stored order runs from the `STOP` side to the
`START` side: its first entry is adjacent to the end (`STOP`) cell and
its last entry is adjacent to the `START` cell — not the other way
around as the specification states. -/
theorem C2_path_adjacency :
    ∀ (rows cols : ℤ) (rng : ℕ → ℕ) (b : Board) (bk : BackTable) (e : Cell)
      (fuel : ℕ) (p : List Maze.PathEntry),
    1 ≤ rows → 1 ≤ cols →
    Maze.generate_board rows cols rng = some (b, bk, e) →
    Maze.get_path fuel bk e = some p →
    p.Chain' (fun x y => manh x.1 y.1 = 1) ∧
    (∀ first ∈ p.head?, manh first.1 e = 1) ∧
    (∀ last ∈ p.getLast?, manh last.1 Maze.START_CELL = 1) := by
  intro rows cols rng b bk e fuel p hr hc hgen hpath
  obtain ⟨st2, hgen2, hinv, hempty⟩ := generate_board_spec rng hr hc
  rw [hgen] at hgen2
  injection hgen2 with hgen2
  rw [Prod.ext_iff] at hgen2
  obtain ⟨hb, hrest⟩ := hgen2
  rw [Prod.ext_iff] at hrest
  obtain ⟨hbk, he⟩ := hrest
  simp only at hb hbk he
  subst hb
  subst hbk
  subst he
  obtain ⟨d, hd⟩ := hinv.grade
  have hendV : st2.endCell ∈ st2.visited := (hinv.nonTriv hempty).1
  have hspec := get_path_loop_spec rows cols st2.back st2.visited d st2.endCell hr hc
    hinv.visitedRoom
    (fun p q h => ⟨(hinv.edgeProps p q h).1, (hinv.edgeProps p q h).2.1,
      final_edge_vis hinv hempty h, (hinv.edgeProps p q h).2.2.2.1⟩)
    hinv.backSome hd hendV fuel st2.endCell hendV (Or.inl rfl) p hpath
  obtain ⟨hb1, hb2, hb3, hb4, hb5, hb6, hb7, hb8⟩ := hspec
  refine ⟨hb1, ?_, hb5⟩
  intro first hfirst
  by_cases hes : st2.endCell = Maze.START_CELL
  · rw [hb2 hes] at hfirst
    exact absurd hfirst (by simp)
  · obtain ⟨q, t3, hq, ht3⟩ := hb4 rfl hes
    rw [ht3] at hfirst
    have hf2 : (Maze.midCell st2.endCell q, Maze.get_dir q st2.endCell) = first := by
      simpa using hfirst
    rw [← hf2]
    show manh (Maze.midCell st2.endCell q) st2.endCell = 1
    rw [manh_comm]
    exact manh_mid_left ((hinv.edgeProps _ _ hq).1)

/-- Witness for C2 (amended) on the concrete 3×3 maze generated with the
zero random stream. -/
theorem C2_path_adjacency_witness :
    ((1 : ℤ) ≤ 3) ∧
    Maze.generate_board 3 3 (fun _ => 0) =
      some ([[1, 0, 1], [1, 0, 1], [1, 1, 1]],
        [[none, none, some (2, 2)], [none, none, none], [some (0, 0), none, some (2, 0)]],
        (0, 2)) ∧
    Maze.get_path 11 [[none, none, some (2, 2)], [none, none, none],
        [some (0, 0), none, some (2, 0)]] (0, 2) =
      some [((1, 2), some Maze.UP), ((2, 2), some Maze.NO_DIR), ((2, 1), some Maze.RIGHT),
        ((2, 0), some Maze.NO_DIR), ((1, 0), some Maze.DOWN)] ∧
    (([((1, 2), some Maze.UP), ((2, 2), some Maze.NO_DIR), ((2, 1), some Maze.RIGHT),
        ((2, 0), some Maze.NO_DIR), ((1, 0), some Maze.DOWN)] :
          List Maze.PathEntry).Chain' (fun x y => manh x.1 y.1 = 1) ∧
      (∀ first ∈ ([((1, 2), some Maze.UP), ((2, 2), some Maze.NO_DIR),
          ((2, 1), some Maze.RIGHT), ((2, 0), some Maze.NO_DIR),
          ((1, 0), some Maze.DOWN)] : List Maze.PathEntry).head?,
        manh first.1 (0, 2) = 1) ∧
      (∀ last ∈ ([((1, 2), some Maze.UP), ((2, 2), some Maze.NO_DIR),
          ((2, 1), some Maze.RIGHT), ((2, 0), some Maze.NO_DIR),
          ((1, 0), some Maze.DOWN)] : List Maze.PathEntry).getLast?,
        manh last.1 Maze.START_CELL = 1)) := by
  have hg : Maze.generate_board 3 3 (fun _ => 0) =
      some ([[1, 0, 1], [1, 0, 1], [1, 1, 1]],
        [[none, none, some (2, 2)], [none, none, none], [some (0, 0), none, some (2, 0)]],
        (0, 2)) := by decide
  have hp : Maze.get_path 11 [[none, none, some (2, 2)], [none, none, none],
      [some (0, 0), none, some (2, 0)]] (0, 2) =
      some [((1, 2), some Maze.UP), ((2, 2), some Maze.NO_DIR), ((2, 1), some Maze.RIGHT),
        ((2, 0), some Maze.NO_DIR), ((1, 0), some Maze.DOWN)] := by decide
  exact ⟨by norm_num, hg, hp,
    C2_path_adjacency 3 3 (fun _ => 0) _ _ _ 11 _ (by norm_num) (by norm_num) hg hp⟩

/-- Counterexample to C2 as stated: in the 1×5 maze generated with the
zero random stream, the stored path is
`[((0,3), RIGHT), ((0,2), NO_DIR), ((0,1), RIGHT)]`; its first entry
`(0,3)` is at Manhattan distance 3 from the `START` cell `(0,0)` — the
stored order begins next to the `STOP` cell `(0,4)`, not next to
`START`. -/
theorem C2_stored_order_counterexample :
    Maze.generate_board 1 5 (fun _ => 0) =
      some ([[1, 1, 1, 1, 1]], [[none, none, some (0, 0), none, some (0, 2)]], (0, 4)) ∧
    Maze.get_path (Maze.pathFuel 1 5) [[none, none, some (0, 0), none, some (0, 2)]]
        (0, 4) =
      some [((0, 3), some Maze.RIGHT), ((0, 2), some Maze.NO_DIR),
        ((0, 1), some Maze.RIGHT)] ∧
    ([((0, 3), some Maze.RIGHT), ((0, 2), some Maze.NO_DIR),
        ((0, 1), some Maze.RIGHT)] : List Maze.PathEntry).head? =
      some ((0, 3), some Maze.RIGHT) ∧
    manh (0, 3) Maze.START_CELL ≠ 1 ∧
    manh (0, 3) ((0 : ℤ), (4 : ℤ)) = 1 :=
  ⟨by decide, by decide, rfl, by decide, by decide⟩

/-! ### Claim C5: classification of path entries -/

/-- C5: in every path returned by `get_path`, the start cell and the end
cell never appear as entries; every other room cell on the backpointer
chain from the end cell appears with direction `NO_DIR`; room (even-even)
entries always carry `NO_DIR`; every non-room entry is the corridor
cell halfway between the two rooms of a backpointer edge and carries the
non-`NO_DIR` direction computed from those two rooms; and, conversely,
every corridor cell halfway between two consecutive room cells of the
backpointer chain from the end cell appears in the path, carrying the
non-`NO_DIR` direction of the two rooms it joins. -/
theorem C5_path_entries :
    ∀ (rows cols : ℤ) (rng : ℕ → ℕ) (b : Board) (bk : BackTable) (e : Cell)
      (fuel : ℕ) (p : List Maze.PathEntry),
    1 ≤ rows → 1 ≤ cols →
    Maze.generate_board rows cols rng = some (b, bk, e) →
    Maze.get_path fuel bk e = some p →
    (∀ en ∈ p, en.1 ≠ Maze.START_CELL ∧ en.1 ≠ e) ∧
    (∀ (n : ℕ) (c' : Cell), backIter bk n e = some c' →
      c' ≠ Maze.START_CELL → c' ≠ e → (c', some Maze.NO_DIR) ∈ p) ∧
    (∀ en ∈ p, (2 ∣ en.1.1 ∧ 2 ∣ en.1.2) → en.2 = some Maze.NO_DIR) ∧
    (∀ en ∈ p, ¬ (2 ∣ en.1.1 ∧ 2 ∣ en.1.2) →
      ∃ a c, backEdge bk a c ∧ en.1 = Maze.midCell a c ∧
        en.2 = Maze.get_dir c a ∧ en.2 ≠ some Maze.NO_DIR) ∧
    (∀ (n : ℕ) (a c : Cell), backIter bk n e = some a → backEdge bk a c →
      (Maze.midCell a c, Maze.get_dir c a) ∈ p ∧
        Maze.get_dir c a ≠ some Maze.NO_DIR) := by
  intro rows cols rng b bk e fuel p hr hc hgen hpath
  obtain ⟨st2, hgen2, hinv, hempty⟩ := generate_board_spec rng hr hc
  rw [hgen] at hgen2
  injection hgen2 with hgen2
  rw [Prod.ext_iff] at hgen2
  obtain ⟨hb, hrest⟩ := hgen2
  rw [Prod.ext_iff] at hrest
  obtain ⟨hbk, he⟩ := hrest
  simp only at hb hbk he
  subst hb
  subst hbk
  subst he
  obtain ⟨d, hd⟩ := hinv.grade
  have hendV : st2.endCell ∈ st2.visited := (hinv.nonTriv hempty).1
  have hspec := get_path_loop_spec rows cols st2.back st2.visited d st2.endCell hr hc
    hinv.visitedRoom
    (fun p q h => ⟨(hinv.edgeProps p q h).1, (hinv.edgeProps p q h).2.1,
      final_edge_vis hinv hempty h, (hinv.edgeProps p q h).2.2.2.1⟩)
    hinv.backSome hd hendV fuel st2.endCell hendV (Or.inl rfl) p hpath
  obtain ⟨hb1, hb2, hb3, hb4, hb5, hb6, hb7, hb8⟩ := hspec
  refine ⟨fun en hen => ⟨(hb6 en hen).1, (hb6 en hen).2.1⟩, hb7, ?_, ?_, ?_⟩
  · intro en hen hpar
    exact ((hb6 en hen).2.2.1 hpar).1
  · intro en hen hnpar
    exact (hb6 en hen).2.2.2 hnpar
  · intro n a c hbi hedge2
    obtain ⟨dv, hdv, hdvne⟩ := get_dir_dist2 (hinv.edgeProps a c hedge2).1
    refine ⟨hb8 n a c hbi hedge2, ?_⟩
    rw [hdv]
    intro hcon
    exact hdvne (Option.some.inj hcon)

/-- Witness for C5 on the concrete 3×3 maze generated with the zero
random stream. -/
theorem C5_path_entries_witness :
    ((1 : ℤ) ≤ 3) ∧
    ((∀ en ∈ ([((1, 2), some Maze.UP), ((2, 2), some Maze.NO_DIR),
        ((2, 1), some Maze.RIGHT), ((2, 0), some Maze.NO_DIR),
        ((1, 0), some Maze.DOWN)] : List Maze.PathEntry),
        en.1 ≠ Maze.START_CELL ∧ en.1 ≠ ((0 : ℤ), (2 : ℤ))) ∧
      (∀ (n : ℕ) (c' : Cell),
        backIter [[none, none, some (2, 2)], [none, none, none],
          [some (0, 0), none, some (2, 0)]] n (0, 2) = some c' →
        c' ≠ Maze.START_CELL → c' ≠ ((0 : ℤ), (2 : ℤ)) →
        (c', some Maze.NO_DIR) ∈ ([((1, 2), some Maze.UP), ((2, 2), some Maze.NO_DIR),
          ((2, 1), some Maze.RIGHT), ((2, 0), some Maze.NO_DIR),
          ((1, 0), some Maze.DOWN)] : List Maze.PathEntry)) ∧
      (∀ en ∈ ([((1, 2), some Maze.UP), ((2, 2), some Maze.NO_DIR),
        ((2, 1), some Maze.RIGHT), ((2, 0), some Maze.NO_DIR),
        ((1, 0), some Maze.DOWN)] : List Maze.PathEntry),
        (2 ∣ en.1.1 ∧ 2 ∣ en.1.2) → en.2 = some Maze.NO_DIR) ∧
      (∀ en ∈ ([((1, 2), some Maze.UP), ((2, 2), some Maze.NO_DIR),
        ((2, 1), some Maze.RIGHT), ((2, 0), some Maze.NO_DIR),
        ((1, 0), some Maze.DOWN)] : List Maze.PathEntry),
        ¬ (2 ∣ en.1.1 ∧ 2 ∣ en.1.2) →
        ∃ a c, backEdge [[none, none, some (2, 2)], [none, none, none],
            [some (0, 0), none, some (2, 0)]] a c ∧
          en.1 = Maze.midCell a c ∧ en.2 = Maze.get_dir c a ∧
          en.2 ≠ some Maze.NO_DIR) ∧
      (∀ (n : ℕ) (a c : Cell),
        backIter [[none, none, some (2, 2)], [none, none, none],
          [some (0, 0), none, some (2, 0)]] n (0, 2) = some a →
        backEdge [[none, none, some (2, 2)], [none, none, none],
          [some (0, 0), none, some (2, 0)]] a c →
        (Maze.midCell a c, Maze.get_dir c a) ∈ ([((1, 2), some Maze.UP),
          ((2, 2), some Maze.NO_DIR), ((2, 1), some Maze.RIGHT),
          ((2, 0), some Maze.NO_DIR), ((1, 0), some Maze.DOWN)] :
            List Maze.PathEntry) ∧
          Maze.get_dir c a ≠ some Maze.NO_DIR)) := by
  have hg : Maze.generate_board 3 3 (fun _ => 0) =
      some ([[1, 0, 1], [1, 0, 1], [1, 1, 1]],
        [[none, none, some (2, 2)], [none, none, none], [some (0, 0), none, some (2, 0)]],
        (0, 2)) := by decide
  have hp : Maze.get_path 11 [[none, none, some (2, 2)], [none, none, none],
      [some (0, 0), none, some (2, 0)]] (0, 2) =
      some [((1, 2), some Maze.UP), ((2, 2), some Maze.NO_DIR), ((2, 1), some Maze.RIGHT),
        ((2, 0), some Maze.NO_DIR), ((1, 0), some Maze.DOWN)] := by decide
  exact ⟨by norm_num,
    C5_path_entries 3 3 (fun _ => 0) _ _ _ 11 _ (by norm_num) (by norm_num) hg hp⟩

/-! ### Claim C3: the end cell is the first to reach the maximum depth -/

theorem le_maxD_start : ∀ (ds : List (ℕ × Cell)) (m0 : ℕ), m0 ≤ maxD ds m0 := by
  intro ds
  induction ds with
  | nil => intro m0; exact le_refl m0
  | cons hd ds ih =>
    intro m0
    exact le_trans (le_max_left m0 hd.1) (ih (max m0 hd.1))

theorem le_maxD_mem : ∀ (ds : List (ℕ × Cell)) (m0 : ℕ) (pr : ℕ × Cell),
    pr ∈ ds → pr.1 ≤ maxD ds m0 := by
  intro ds
  induction ds with
  | nil =>
    intro m0 pr h
    exact absurd h (List.not_mem_nil pr)
  | cons hd ds ih =>
    intro m0 pr h
    rcases List.mem_cons.mp h with h1 | h2
    · rw [h1]
      exact le_trans (le_max_right m0 hd.1) (le_maxD_start ds (max m0 hd.1))
    · exact ih (max m0 hd.1) pr h2

theorem foldl_updMax_no : ∀ (ds : List (ℕ × Cell)) (m0 : ℕ) (e0 : Cell),
    (∀ pr ∈ ds, ¬ m0 < pr.1) → ds.foldl updMax (m0, e0) = (m0, e0) := by
  intro ds
  induction ds with
  | nil => intro m0 e0 _; rfl
  | cons hd ds ih =>
    intro m0 e0 h
    rw [List.foldl_cons]
    have hu : updMax (m0, e0) hd = (m0, e0) := if_neg (h hd (List.mem_cons_self hd ds))
    rw [hu]
    exact ih m0 e0 (fun pr hp => h pr (List.mem_cons_of_mem hd hp))

/-- Folding the strict-update step over a trace yields the maximum depth
together with the cell of the *first* entry that attains the maximum
(when the maximum exceeds the initial value). -/
theorem foldl_updMax_firstmax : ∀ (ds : List (ℕ × Cell)) (m0 : ℕ) (e0 : Cell),
    (ds.foldl updMax (m0, e0)).1 = maxD ds m0 ∧
    (m0 < maxD ds m0 →
      (ds.find? (fun pr => pr.1 == maxD ds m0)).map Prod.snd
        = some (ds.foldl updMax (m0, e0)).2) := by
  intro ds
  induction ds with
  | nil =>
    intro m0 e0
    exact ⟨rfl, fun h => absurd h (lt_irrefl m0)⟩
  | cons hd ds ih =>
    intro m0 e0
    rw [List.foldl_cons]
    by_cases hgt : m0 < hd.1
    · have hu : updMax (m0, e0) hd = hd := if_pos hgt
      rw [hu]
      have hmax : maxD (hd :: ds) m0 = maxD ds hd.1 := by
        show maxD ds (max m0 hd.1) = maxD ds hd.1
        rw [max_eq_right (le_of_lt hgt)]
      rw [hmax]
      obtain ⟨ih1, ih2⟩ := ih hd.1 hd.2
      refine ⟨ih1, ?_⟩
      intro _
      by_cases hM : maxD ds hd.1 = hd.1
      · have hnone : ∀ pr ∈ ds, ¬ hd.1 < pr.1 := by
          intro pr hp
          have := le_maxD_mem ds hd.1 pr hp
          omega
        have h2 : ds.foldl updMax hd = (hd.1, hd.2) := foldl_updMax_no ds hd.1 hd.2 hnone
        rw [h2, hM]
        rw [List.find?_cons_of_pos _ (by simp)]
        rfl
      · have hlt : hd.1 < maxD ds hd.1 :=
          lt_of_le_of_ne (le_maxD_start ds hd.1) (fun he => hM he.symm)
        rw [List.find?_cons_of_neg _ (by simp; omega)]
        exact ih2 hlt
    · have hu : updMax (m0, e0) hd = (m0, e0) := if_neg hgt
      rw [hu]
      have hmax : maxD (hd :: ds) m0 = maxD ds m0 := by
        show maxD ds (max m0 hd.1) = maxD ds m0
        rw [max_eq_left (not_lt.mp hgt)]
      rw [hmax]
      obtain ⟨ih1, ih2⟩ := ih m0 e0
      refine ⟨ih1, ?_⟩
      intro hm
      have hlt : hd.1 < maxD ds m0 := by
        have h1 : hd.1 ≤ m0 := not_lt.mp hgt
        omega
      rw [List.find?_cons_of_neg _ (by simp; omega)]
      exact ih2 hm

/-- The maximum-depth bookkeeping of one `genStep` iteration is exactly
one `updMax` step on the pair `(max_length, end)`. -/
theorem genStep_updMax {rows cols : ℤ} {rng : ℕ → ℕ} {st st' : Maze.GenState}
    {cell : Cell} {rest : List Cell}
    (hstack : st.stack = cell :: rest)
    (h : Maze.genStep rows cols rng st = some st') :
    (st'.maxLength, st'.endCell) = updMax (st.maxLength, st.endCell) (st.stack.length, cell) := by
  obtain ⟨cell2, rest2, board', hstack2, hset, hcases⟩ := Maze.genStep_elim h
  have hcc : cell = cell2 := by
    rw [hstack] at hstack2
    exact (List.cons_eq_cons.mp hstack2).1
  have hupd : updMax (st.maxLength, st.endCell) (st.stack.length, cell) =
      (if st.stack.length > st.maxLength then st.stack.length else st.maxLength,
       if st.stack.length > st.maxLength then cell else st.endCell) := by
    unfold updMax
    by_cases hgt : st.stack.length > st.maxLength
    · rw [if_pos hgt, if_pos hgt, if_pos hgt]
    · rw [if_neg hgt, if_neg hgt, if_neg hgt]
  rw [hupd, hcc]
  rcases hcases with ⟨hch, hst'⟩ | ⟨hch, board'', back', hs2, hs3, hst'⟩
  · rw [hst']
    rfl
  · rw [hst']
    rfl

/-- The generation loop's final end cell is the fold of `updMax` over the
instrumented depth trace; trace entries are depths of non-empty stacks. -/
theorem genLoop_genDepths (rows cols : ℤ) (rng : ℕ → ℕ) :
    ∀ (fuel : ℕ) (st : Maze.GenState) (res : Board × BackTable × Cell),
      Maze.genLoop rows cols rng fuel st = some res →
      ∃ ds, genDepths rows cols rng fuel st = some ds ∧
        (ds.foldl updMax (st.maxLength, st.endCell)).2 = res.2.2 ∧
        (st.stack = [] ∨ ds ≠ []) ∧
        (∀ pr ∈ ds, 1 ≤ pr.1) := by
  intro fuel
  induction fuel with
  | zero =>
    intro st res h
    exact Option.noConfusion h
  | succ fuel ih =>
    intro st res h
    cases hstack : st.stack with
    | nil =>
      rw [Maze.genLoop_succ_nil hstack] at h
      have hres : res = (st.board, st.back, st.endCell) := (Option.some.inj h).symm
      refine ⟨[], ?_, ?_, Or.inl rfl, ?_⟩
      · have e1 : genDepths rows cols rng (fuel + 1) st =
            (match st.stack with
             | [] => some []
             | cell :: _ =>
               match Maze.genStep rows cols rng st with
               | none => none
               | some st' =>
                 (genDepths rows cols rng fuel st').map
                   (fun ds => (st.stack.length, cell) :: ds)) := rfl
        rw [e1, hstack]
      · rw [hres]
        rfl
      · intro pr hpr
        exact absurd hpr (List.not_mem_nil pr)
    | cons cell rest =>
      cases hstep : Maze.genStep rows cols rng st with
      | none =>
        rw [genLoop_succ_cons_none hstack hstep] at h
        exact Option.noConfusion h
      | some st' =>
        rw [Maze.genLoop_succ_cons hstack hstep] at h
        obtain ⟨ds', hds', hfold, _, hone⟩ := ih st' res h
        refine ⟨(st.stack.length, cell) :: ds', ?_, ?_, Or.inr (by simp), ?_⟩
        · have e1 : genDepths rows cols rng (fuel + 1) st =
              (match st.stack with
               | [] => some []
               | cell :: _ =>
                 match Maze.genStep rows cols rng st with
                 | none => none
                 | some st' =>
                   (genDepths rows cols rng fuel st').map
                     (fun ds => (st.stack.length, cell) :: ds)) := rfl
          rw [e1, hstack]
          simp only []
          rw [hstep]
          simp only []
          rw [hds']
          rfl
        · rw [List.foldl_cons, ← genStep_updMax hstack hstep]
          exact hfold
        · intro pr hpr
          rcases List.mem_cons.mp hpr with h1 | h2
          · rw [h1, hstack]
            show 1 ≤ (cell :: rest).length
            rw [List.length_cons]
            omega
          · exact hone pr h2

/-- C3: the furthest cell is updated only on strictly greater stack
depth, so the end cell returned by `generate_board` is the cell of the
*first* entry of the depth trace that attains the maximum depth of the
whole run; a later cell reaching the same depth never replaces it. -/
theorem C3_first_deepest :
    ∀ (rows cols : ℤ) (rng : ℕ → ℕ) (b : Board) (bk : BackTable) (e : Cell),
    Maze.generate_board rows cols rng = some (b, bk, e) →
    ∃ ds : List (ℕ × Cell),
      genDepths rows cols rng (Maze.genFuel rows cols) (Maze.initState rows cols) = some ds ∧
      ds ≠ [] ∧
      (ds.find? (fun pr => pr.1 == maxD ds 0)).map Prod.snd = some e := by
  intro rows cols rng b bk e hgen
  have h : Maze.genLoop rows cols rng (Maze.genFuel rows cols) (Maze.initState rows cols)
      = some (b, bk, e) := hgen
  obtain ⟨ds, hds, hfold, hne, hone⟩ := genLoop_genDepths rows cols rng _ _ _ h
  have hdsne : ds ≠ [] := by
    rcases hne with h1 | h1
    · exact absurd h1 (by simp [Maze.initState])
    · exact h1
  refine ⟨ds, hds, hdsne, ?_⟩
  have hfm := foldl_updMax_firstmax ds 0 Maze.START_CELL
  have hpos : 0 < maxD ds 0 := by
    cases ds with
    | nil => exact absurd rfl hdsne
    | cons pr ds' =>
      have h1 : 1 ≤ pr.1 := hone pr (List.mem_cons_self pr ds')
      have h2 : pr.1 ≤ maxD (pr :: ds') 0 := le_maxD_mem _ 0 pr (List.mem_cons_self pr ds')
      omega
  have hfold2 : (ds.foldl updMax (0, Maze.START_CELL)).2 = e := hfold
  rw [hfm.2 hpos, hfold2]

/-- Witness for C3 on the concrete 3×3 maze generated with the zero
random stream. -/
theorem C3_first_deepest_witness :
    Maze.generate_board 3 3 (fun _ => 0) =
      some ([[1, 0, 1], [1, 0, 1], [1, 1, 1]],
        [[none, none, some (2, 2)], [none, none, none], [some (0, 0), none, some (2, 0)]],
        (0, 2)) ∧
    ∃ ds : List (ℕ × Cell),
      genDepths 3 3 (fun _ => 0) (Maze.genFuel 3 3) (Maze.initState 3 3) = some ds ∧
      ds ≠ [] ∧
      (ds.find? (fun pr => pr.1 == maxD ds 0)).map Prod.snd = some ((0 : ℤ), (2 : ℤ)) := by
  have hg : Maze.generate_board 3 3 (fun _ => 0) =
      some ([[1, 0, 1], [1, 0, 1], [1, 1, 1]],
        [[none, none, some (2, 2)], [none, none, none], [some (0, 0), none, some (2, 0)]],
        (0, 2)) := by decide
  exact ⟨hg, C3_first_deepest 3 3 (fun _ => 0) _ _ _ hg⟩
